import Mathlib

/- Verification of the settings-resolution and execution-dispatch core of the
   vscode-isort language server, shallowly embedded from
   bundled/tool/lsp_server.py and bundled/formatter/format_server.py.
   Python strings are modelled as lists of characters; the Python string
   operations the code uses (find, replace, splitlines, startswith, lower,
   os.path helpers) are embedded below.  Fallible Python code (raising
   exceptions) is modelled with Except. -/

namespace VSIsort

/-- Python strings are modelled as lists of characters. -/
abbrev Str := List Char

/-- Index of the first occurrence of `pat` inside a string (auxiliary for
Python `str.find` / the `in` operator). -/
def occIdx (pat : Str) : Str → Option Nat
  | [] => if pat = [] then some 0 else none
  | c :: rest =>
    if pat.isPrefixOf (c :: rest) then some 0
    else (occIdx pat rest).map (· + 1)

/-- Python `str.find`: index of the first occurrence of `pat`, or `-1`. -/
def pyFind (s pat : Str) : Int :=
  match occIdx pat s with
  | some n => (n : Int)
  | none => -1

/-- Python substring containment (the `in` operator on str). -/
def containsSub (s pat : Str) : Bool := (occIdx pat s).isSome

/-- Python `str.replace` for a non-empty pattern: replaces non-overlapping
occurrences left to right.  `skip` counts characters of an occurrence
still to be consumed after its replacement has been emitted. -/
def replaceGo (pat new : Str) : Nat → Str → Str
  | _, [] => []
  | skip + 1, _ :: rest => replaceGo pat new skip rest
  | 0, c :: rest =>
    if pat.isPrefixOf (c :: rest) then
      new ++ replaceGo pat new (pat.length - 1) rest
    else
      c :: replaceGo pat new 0 rest

/-- Python `str.replace`.  (For an empty pattern Python would intersperse
`new` between all characters; the code never replaces an empty pattern, so
that case is returned unchanged.) -/
def pyReplace (s pat new : Str) : Str :=
  match pat with
  | [] => s
  | _ :: _ => replaceGo pat new 0 s

/-- Python `str.startswith`. -/
def pyStartsWith (s pat : Str) : Bool := pat.isPrefixOf s

/-- Python `str.endswith`. -/
def pyEndsWith (s pat : Str) : Bool := pat.isSuffixOf s

end VSIsort

namespace VSIsort

/- ********************************************************************
   Execution-strategy selection (C1).

   Embedded from lsp_server.py `_run_tool_on_document` (lines 685-701)
   and `_run_tool` (lines 779-795): the nested conditionals

     if settings["path"]: use_path = True; argv = settings["path"]
     elif settings["interpreter"] and not utils.is_current_interpreter(
             settings["interpreter"][0]): argv = [TOOL_MODULE]; use_rpc = True
     else: argv = [TOOL_MODULE]

   `utils.is_current_interpreter` lives in the bundled lsp_utils library
   (outside this repository's sources), so it is kept abstract as a
   parameter.
   ******************************************************************** -/

/-- The tool module name (`TOOL_MODULE = "isort"` in lsp_server.py). -/
def TOOL_MODULE : String := "isort"

/-- The three execution strategies of the dispatcher. -/
inductive Strategy where
  | usePath
  | useRpc
  | useModule
deriving DecidableEq, Repr

/-- Outcome of the strategy-selection conditionals in
`_run_tool_on_document`: the two flags the Python code sets plus the
initial argument vector. -/
structure StrategyChoice where
  use_path : Bool
  use_rpc : Bool
  argv : List String
deriving DecidableEq, Repr

/-- Strategy selection of `_run_tool_on_document` (lsp_server.py, lines
685-701).  `path` and `interpreter` are the corresponding settings values;
`isCurrent` abstracts `utils.is_current_interpreter`.  A Python `if` on a
list tests non-emptiness. -/
def chooseStrategyDoc (path interpreter : List String)
    (isCurrent : String → Bool) : StrategyChoice :=
  if path ≠ [] then
    { use_path := true, use_rpc := false, argv := path }
  else
    match interpreter with
    | i0 :: _ =>
      if ¬ isCurrent i0 then
        { use_path := false, use_rpc := true, argv := [TOOL_MODULE] }
      else
        { use_path := false, use_rpc := false, argv := [TOOL_MODULE] }
    | [] => { use_path := false, use_rpc := false, argv := [TOOL_MODULE] }

/-- Strategy selection of `_run_tool` (lsp_server.py, lines 779-795); the
code tests `len(settings["path"]) > 0` instead of truthiness, which is
the same condition for a list. -/
def chooseStrategyTool (path interpreter : List String)
    (isCurrent : String → Bool) : StrategyChoice :=
  if 0 < path.length then
    { use_path := true, use_rpc := false, argv := path }
  else
    match interpreter with
    | i0 :: _ =>
      if ¬ isCurrent i0 then
        { use_path := false, use_rpc := true, argv := [TOOL_MODULE] }
      else
        { use_path := false, use_rpc := false, argv := [TOOL_MODULE] }
    | [] => { use_path := false, use_rpc := false, argv := [TOOL_MODULE] }

/-- The strategy denoted by the two flags: `use_path` means running the
configured executable, `use_rpc` the cross-interpreter JSON-RPC channel,
and neither means the in-process module run. -/
def StrategyChoice.strategy (c : StrategyChoice) : Strategy :=
  if c.use_path then .usePath else if c.use_rpc then .useRpc else .useModule

end VSIsort

namespace VSIsort

/-- C1: For every invocation, exactly one of the three execution strategies
is chosen, in the fixed priority order path executable > foreign
interpreter > in-process module: a non-empty `path` setting selects the
path-executable strategy; otherwise a non-empty `interpreter` whose first
element is not the hosting interpreter selects the cross-interpreter RPC
strategy; otherwise the in-process module strategy is selected.  This holds
identically for `_run_tool_on_document` and `_run_tool`, and the path/RPC
flags are never both set. -/
theorem C1_strategy_priority (path interpreter : List String)
    (isCurrent : String → Bool) :
    chooseStrategyTool path interpreter isCurrent
      = chooseStrategyDoc path interpreter isCurrent ∧
    ¬ ((chooseStrategyDoc path interpreter isCurrent).use_path = true ∧
        (chooseStrategyDoc path interpreter isCurrent).use_rpc = true) ∧
    (path ≠ [] ↔
      (chooseStrategyDoc path interpreter isCurrent).strategy = .usePath) ∧
    ((path = [] ∧ ∃ i0 t, interpreter = i0 :: t ∧ isCurrent i0 = false) ↔
      (chooseStrategyDoc path interpreter isCurrent).strategy = .useRpc) ∧
    ((path = [] ∧ ∀ i0 ∈ interpreter.head?, isCurrent i0 = true) ↔
      (chooseStrategyDoc path interpreter isCurrent).strategy = .useModule) := by
  cases path with
  | cons p ps =>
    simp [chooseStrategyDoc, chooseStrategyTool, StrategyChoice.strategy]
  | nil =>
    cases interpreter with
    | nil =>
      simp [chooseStrategyDoc, chooseStrategyTool, StrategyChoice.strategy]
    | cons i0 t =>
      by_cases h : isCurrent i0 <;>
        simp [chooseStrategyDoc, chooseStrategyTool, StrategyChoice.strategy, h]

end VSIsort

namespace VSIsort

/- ********************************************************************
   Python `str.splitlines`.

   Modelled for the line terminators `\n`, `\r` and `\r\n` (Python also
   splits on a few rarer control characters, which none of the verified
   properties depend on: both sides of every statement below use this same
   notion of a line).
   ******************************************************************** -/

/-- One pass of `str.splitlines(keepends=True)`: `cur` is the reversed
prefix of the line being accumulated. -/
def splitKeepAux (cur : Str) : Str → List Str
  | [] => if cur = [] then [] else [cur.reverse]
  | '\r' :: '\n' :: rest => (cur.reverse ++ ['\r', '\n']) :: splitKeepAux [] rest
  | '\r' :: rest => (cur.reverse ++ ['\r']) :: splitKeepAux [] rest
  | '\n' :: rest => (cur.reverse ++ ['\n']) :: splitKeepAux [] rest
  | c :: rest => splitKeepAux (c :: cur) rest

/-- Python `str.splitlines(keepends=True)`. -/
def splitlinesKeep (s : Str) : List Str := splitKeepAux [] s

/-- Removes one trailing line terminator from a line, if present. -/
def chopEol (l : Str) : Str :=
  if pyEndsWith l ['\r', '\n'] then l.dropLast.dropLast
  else if pyEndsWith l ['\n'] then l.dropLast
  else if pyEndsWith l ['\r'] then l.dropLast
  else l

/-- Python `str.splitlines()` (without keepends): the kept-ends lines with
their terminators removed. -/
def pySplitlines (s : Str) : List Str := (splitlinesKeep s).map chopEol

/-- Joining the kept-ends lines restores the original string. -/
theorem join_splitKeepAux : ∀ (cur s : Str),
    (splitKeepAux cur s).flatten = cur.reverse ++ s := by
  intro cur s
  induction cur, s using splitKeepAux.induct with
  | case1 => simp [splitKeepAux]
  | case2 cur h => simp [splitKeepAux, h]
  | case3 cur rest ih => simp [splitKeepAux, ih]
  | case4 cur rest h ih =>
    cases rest with
    | nil => simp [splitKeepAux, ih]
    | cons d rest2 =>
      have hd : d ≠ '\n' := fun hh => h rest2 (by rw [hh])
      simp [splitKeepAux, hd, ih]
  | case5 cur rest ih => simp [splitKeepAux, ih]
  | case6 cur c rest h1 h2 h3 ih =>
    simp [splitKeepAux, h2, h3, ih]

/-- Joining the kept-ends lines of a string restores it. -/
theorem join_splitlinesKeep (s : Str) : (splitlinesKeep s).flatten = s := by
  simpa using join_splitKeepAux [] s

end VSIsort

namespace VSIsort

/- ********************************************************************
   Diagnostics translation (C3).

   Embedded from lsp_server.py: `_linting_helper` (lines 124-145),
   `_is_sorting_error` (159-163), `_parse_output` (166-206) and
   `_get_severity` (148-156).  A pygls document's `lines` attribute is its
   source split with `splitlines(keepends=True)`.
   ******************************************************************** -/

/-- Python `str.lower`, for the ASCII text the server compares. -/
def pyLower (s : Str) : Str := s.map Char.toLower

/-- A document as the server sees it: its URI and its text. -/
structure Document where
  uri : String
  source : Str
deriving DecidableEq, Repr

/-- The pygls `document.lines` attribute: `source.splitlines(True)`. -/
def Document.lines (d : Document) : List Str := splitlinesKeep d.source

/-- Result of running the external tool (lsp_utils.RunResult). -/
structure RunResult where
  stdout : Str
  stderr : Str
deriving DecidableEq, Repr

/-- The error-marker token of `_is_sorting_error`. -/
def ERROR_MARKER : Str := "ERROR".data

/-- The fixed sorting-error substring of `_is_sorting_error`. -/
def SORT_NEEDLE : Str := "imports are incorrectly sorted".data

/-- `_is_sorting_error` (lsp_server.py lines 159-163). -/
def isSortingError (line : Str) : Bool :=
  pyStartsWith line ERROR_MARKER &&
    decide (0 < pyFind (pyLower line) SORT_NEEDLE)

/-- LSP diagnostic severities. -/
inductive DiagSeverity where
  | Error
  | Warning
  | Information
  | Hint
deriving DecidableEq, Repr

/-- Lookup in `lsp.DiagnosticSeverity[...]` by member name. -/
def severityFromName : String → Option DiagSeverity
  | "Error" => some .Error
  | "Warning" => some .Warning
  | "Information" => some .Information
  | "Hint" => some .Hint
  | _ => none

/-- Python `dict.get(key, default)` over an association list. -/
def dictGetD (d : List (String × String)) (k dflt : String) : String :=
  match d.find? (fun kv => kv.1 == k) with
  | some kv => kv.2
  | none => dflt

/-- `_get_severity` (lsp_server.py lines 148-156): map the short code
through the user severity table, falling back to Warning. -/
def getSeverity (codeType : String) (severity : List (String × String)) :
    DiagSeverity :=
  (severityFromName (dictGetD severity codeType "Warning")).getD .Warning

/-- An LSP range, with start/end line and character. -/
structure Range where
  startLine : Nat
  startChar : Nat
  endLine : Nat
  endChar : Nat
deriving DecidableEq, Repr

/-- An LSP diagnostic as `_parse_output` builds it. -/
structure Diagnostic where
  range : Range
  message : String
  severity : DiagSeverity
  code : String
  source : String
deriving DecidableEq, Repr

/-- Index of the first document line starting with an import keyword, or 0
when there is none (the `import_line` computation of `_parse_output`). -/
def importLineOf (d : Document) : Nat :=
  (d.lines.findIdx? (fun l =>
    pyStartsWith l "import".data || pyStartsWith l "from".data)).getD 0

/-- `_parse_output` (lsp_server.py lines 166-206). -/
def parseOutput (d : Document) (output : Str)
    (severity : List (String × String)) : List Diagnostic :=
  if (pySplitlines output).any isSortingError then
    [{ range :=
        { startLine := importLineOf d, startChar := 0,
          endLine := importLineOf d + 1, endChar := 0 },
       message := "Imports are incorrectly sorted and/or formatted.",
       severity := getSeverity "E" severity,
       code := "E",
       source := "isort" }]
  else []

/-- `_linting_helper` (lsp_server.py lines 124-145).  `check` and
`severity` are the resolved settings fields; `run` is the outcome of
`_run_tool_on_document` (`none` both for a precondition skip and for the
caught-exception path, which also yields no diagnostics). -/
def lintingHelper (check : Bool) (severity : List (String × String))
    (d : Document) (run : Option RunResult) : List Diagnostic :=
  if ¬ check then []
  else
    match run with
    | some r => if r.stderr ≠ [] then parseOutput d r.stderr severity else []
    | none => []

end VSIsort

namespace VSIsort

/-- An occurrence search returns index 0 exactly when the (non-empty)
pattern is a prefix of the string. -/
theorem occIdx_eq_some_zero {pat s : Str} (hp : pat ≠ []) :
    occIdx pat s = some 0 ↔ pat.isPrefixOf s = true := by
  cases s with
  | nil =>
    cases pat with
    | nil => exact absurd rfl hp
    | cons p ps => simp [occIdx, List.isPrefixOf]
  | cons c rest =>
    simp only [occIdx]
    by_cases h : pat.isPrefixOf (c :: rest)
    · simp [h]
    · simp only [h, if_neg, Bool.false_eq_true, iff_false, if_false]
      intro hmap
      rcases Option.map_eq_some'.mp hmap with ⟨a, _, ha⟩
      omega

/-- For a line that starts with the error marker, `find(...) > 0` is the
same as substring containment: the needle can never sit at index 0. -/
theorem find_pos_iff_contains (l : Str)
    (hS : pyStartsWith l ERROR_MARKER = true) :
    0 < pyFind (pyLower l) SORT_NEEDLE ↔
      containsSub (pyLower l) SORT_NEEDLE = true := by
  unfold pyFind containsSub
  cases h : occIdx SORT_NEEDLE (pyLower l) with
  | none => simp
  | some n =>
    simp only [Option.isSome_some, iff_true]
    have hn : n ≠ 0 := by
      intro h0
      subst h0
      have hpre : SORT_NEEDLE.isPrefixOf (pyLower l) = true :=
        (occIdx_eq_some_zero (by decide)).mp h
      cases l with
      | nil => simp [pyStartsWith, ERROR_MARKER, List.isPrefixOf] at hS
      | cons c tl =>
        have hm : ERROR_MARKER = 'E' :: "RROR".data := rfl
        rw [pyStartsWith, hm] at hS
        simp only [List.isPrefixOf, Bool.and_eq_true, beq_iff_eq] at hS
        have hcE : c = 'E' := hS.1.symm
        have hneedle : SORT_NEEDLE = 'i' :: "mports are incorrectly sorted".data := rfl
        rw [hneedle] at hpre
        simp only [pyLower, List.map_cons, List.isPrefixOf, Bool.and_eq_true,
          beq_iff_eq] at hpre
        rw [hcE] at hpre
        exact absurd hpre.1 (by decide)
    omega

/-- `_is_sorting_error` holds exactly when the line starts with the error
marker and case-insensitively contains the fixed sorting-error text. -/
theorem isSortingError_iff (l : Str) :
    isSortingError l = true ↔
      (pyStartsWith l ERROR_MARKER = true ∧
        containsSub (pyLower l) SORT_NEEDLE = true) := by
  unfold isSortingError
  rw [Bool.and_eq_true, decide_eq_true_iff]
  constructor
  · rintro ⟨h1, h2⟩
    exact ⟨h1, (find_pos_iff_contains l h1).mp h2⟩
  · rintro ⟨h1, h2⟩
    exact ⟨h1, (find_pos_iff_contains l h1).mpr h2⟩

end VSIsort

namespace VSIsort

/-- C3: The diagnostics check returns the empty list when `check` is
disabled; otherwise it returns exactly one diagnostic — code "E", source
"isort", message "Imports are incorrectly sorted and/or formatted.",
spanning column 0 of the first document line starting with "import" or
"from" (line 0 if none) to column 0 of the next line — if and only if some
stderr line of the check-mode run starts with "ERROR" and contains
"imports are incorrectly sorted" case-insensitively. -/
theorem C3_check_diagnostics (check : Bool)
    (severity : List (String × String)) (d : Document)
    (run : Option RunResult) :
    (check = false → lintingHelper check severity d run = []) ∧
    (∀ r, run = some r →
      ((∃ diag, lintingHelper check severity d run = [diag] ∧
          diag.code = "E" ∧ diag.source = "isort" ∧
          diag.message = "Imports are incorrectly sorted and/or formatted." ∧
          diag.range =
            { startLine := importLineOf d, startChar := 0,
              endLine := importLineOf d + 1, endChar := 0 }) ↔
        (check = true ∧ ∃ l ∈ pySplitlines r.stderr,
          pyStartsWith l ERROR_MARKER = true ∧
          containsSub (pyLower l) SORT_NEEDLE = true))) := by
  constructor
  · intro h
    simp [lintingHelper, h]
  · intro r hr
    subst hr
    by_cases hc : check
    · simp only [lintingHelper, hc, not_true, if_neg, if_false]
      by_cases hs : r.stderr = []
      · have hlines : pySplitlines ([] : Str) = [] := rfl
        simp [hs, hlines, hc]
      · simp only [hs, if_neg, if_true, ne_eq, not_false_iff, ite_true]
        rw [parseOutput]
        by_cases he : (pySplitlines r.stderr).any isSortingError
        · simp only [he, if_true, hc, true_and]
          constructor
          · intro _
            rcases List.any_eq_true.mp he with ⟨l, hl, hl2⟩
            exact ⟨l, hl, (isSortingError_iff l).mp hl2⟩
          · intro _
            exact ⟨_, rfl, rfl, rfl, rfl, rfl⟩
        · simp only [he, if_false, Bool.false_eq_true, ite_false]
          constructor
          · rintro ⟨diag, hdiag, -⟩
            exact absurd hdiag (by simp)
          · rintro ⟨-, l, hl, hl2⟩
            exact absurd (List.any_eq_true.mpr ⟨l, hl, (isSortingError_iff l).mpr hl2⟩) he
    · simp only [Bool.not_eq_true] at hc
      constructor
      · rintro ⟨diag, hdiag, -⟩
        rw [lintingHelper] at hdiag
        simp [hc] at hdiag
      · rintro ⟨hck, -⟩
        rw [hck] at hc
        cases hc

end VSIsort

namespace VSIsort

/-- Witness for C1: concrete settings exercising the three strategies. -/
theorem C1_strategy_priority_witness :
    (chooseStrategyDoc ["/usr/bin/isort"] [] (fun _ => false)).strategy
        = Strategy.usePath ∧
    (chooseStrategyDoc [] ["/opt/python"] (fun _ => false)).strategy
        = Strategy.useRpc ∧
    (chooseStrategyDoc [] [] (fun _ => false)).strategy
        = Strategy.useModule :=
  ⟨(C1_strategy_priority ["/usr/bin/isort"] [] (fun _ => false)).2.2.1.mp
      (by decide),
   (C1_strategy_priority [] ["/opt/python"] (fun _ => false)).2.2.2.1.mp
      ⟨rfl, "/opt/python", [], rfl, rfl⟩,
   (C1_strategy_priority [] [] (fun _ => false)).2.2.2.2.mp
      ⟨rfl, by simp⟩⟩

/-- Witness for C3: an incorrectly-sorted document with a check-mode stderr
carrying the sorting-error line yields the single expected diagnostic. -/
theorem C3_check_diagnostics_witness :
    ∃ diag, lintingHelper true []
        ⟨"file:///a.py", "import b\nimport a\n".data⟩
        (some ⟨[], "ERROR: imports are incorrectly sorted".data⟩) = [diag] ∧
      diag.code = "E" ∧ diag.source = "isort" ∧
      diag.message = "Imports are incorrectly sorted and/or formatted." ∧
      diag.range =
        { startLine := importLineOf ⟨"file:///a.py", "import b\nimport a\n".data⟩,
          startChar := 0,
          endLine := importLineOf ⟨"file:///a.py", "import b\nimport a\n".data⟩ + 1,
          endChar := 0 } :=
  ((C3_check_diagnostics true [] ⟨"file:///a.py", "import b\nimport a\n".data⟩
      (some ⟨[], "ERROR: imports are incorrectly sorted".data⟩)).2 _ rfl).mpr
    ⟨rfl, by decide⟩

end VSIsort

namespace VSIsort

/- ********************************************************************
   Edit building (C4, C5, C9).

   Embedded from lsp_server.py `_get_line_endings` (396-403),
   `_match_line_endings` (406-412), `_formatting_helper` (355-377),
   `code_action_resolve` (296-322) and format_server.py `_format`
   (203-236); the two servers share the line-ending helpers verbatim.
   ******************************************************************** -/

/-- `_get_line_endings`: detects the ending of the first line
(`lines[0][-2:] == "\r\n"`), `None` when there are no lines. -/
def getLineEndings (lines : List Str) : Option Str :=
  match lines with
  | [] => none
  | l :: _ =>
    if l.drop (l.length - 2) = ['\r', '\n'] then some ['\r', '\n']
    else some ['\n']

/-- `_match_line_endings`: rewrite the new text's endings to the
document's when both are determinable and differ. -/
def matchLineEndings (d : Document) (text : Str) : Str :=
  match getLineEndings (splitlinesKeep text),
      getLineEndings (splitlinesKeep d.source) with
  | some actual, some expected =>
    if actual = expected then text else pyReplace text actual expected
  | _, _ => text

/-- The notebook-cell URI scheme tested by both edit builders. -/
def NOTEBOOK_SCHEME : Str := "vscode-notebook-cell".data

/-- The trailing-newline strip applied to notebook-cell results:
`new_source[:-2]` when it ends with `\r\n`, else `new_source[:-1]` when it
ends with `\n`. -/
def stripNotebookEol (s : Str) : Str :=
  if pyEndsWith s ['\r', '\n'] then s.dropLast.dropLast
  else if pyEndsWith s ['\n'] then s.dropLast
  else s

/-- The reconciled replacement text both edit builders compute from the
tool's stdout: line endings matched to the document, then the notebook
strip for notebook-cell URIs. -/
def newSourceFor (d : Document) (stdout : Str) : Str :=
  if pyStartsWith d.uri.data NOTEBOOK_SCHEME then
    stripNotebookEol (matchLineEndings d stdout)
  else matchLineEndings d stdout

/-- An LSP text edit. -/
structure TextEdit where
  range : Range
  newText : Str
deriving DecidableEq, Repr

/-- The whole-document replacement edit (line 0 col 0 through the line
count col 0). -/
def fullDocEdit (d : Document) (newText : Str) : TextEdit :=
  { range :=
      { startLine := 0, startChar := 0,
        endLine := d.lines.length, endChar := 0 },
    newText := newText }

/-- `_formatting_helper` (lsp_server.py lines 355-377), given the outcome
of `_run_tool_on_document`.  Note that it inspects only `result.stdout`;
stderr is never examined here. -/
def formattingHelper (d : Document) (run : Option RunResult) :
    Option (List TextEdit) :=
  match run with
  | some r =>
    if r.stdout ≠ [] then
      if newSourceFor d r.stdout ≠ d.source then
        some [fullDocEdit d (newSourceFor d r.stdout)]
      else none
    else none
  | none => none

/-- `_format` (format_server.py lines 203-236), given the `RunResult` of
`_run`: a stderr containing an error marker aborts with no edit; otherwise
the reconciled stdout becomes a whole-document edit unless unchanged. -/
def formatFS (d : Document) (r : RunResult) : Option (List TextEdit) :=
  if r.stderr ≠ [] ∧
      (0 ≤ pyFind r.stderr "Error:".data ∨ 0 ≤ pyFind r.stderr "error:".data)
  then none
  else
    if newSourceFor d r.stdout = d.source then none
    else some [fullDocEdit d (newSourceFor d r.stdout)]

/-- `code_action_resolve` (lsp_server.py lines 296-322) and `resolve`
(format_server.py lines 341-366): the edits attached to the returned
action and the document's diagnostics after the call, given the formatting
outcome and the diagnostics published before the call. -/
def codeActionResolve (d : Document) (fmt : Option (List TextEdit))
    (diagsBefore : List Diagnostic) : List TextEdit × List Diagnostic :=
  match fmt with
  | some results => (results, [])
  | none => ([fullDocEdit d d.source], diagsBefore)

end VSIsort

namespace VSIsort

/-- `find(..) >= 0` is substring containment. -/
theorem find_nonneg_iff_contains (s pat : Str) :
    0 ≤ pyFind s pat ↔ containsSub s pat = true := by
  unfold pyFind containsSub
  cases h : occIdx pat s with
  | none => simp
  | some n => simp

/-- Counterexample to C4 as stated: `_formatting_helper` in lsp_server.py
packages the tool's stdout as a replacement edit even though the run's
stderr is non-empty and contains the error marker. -/
theorem C4_counterexample :
    ("Error: boom".data ≠ ([] : Str)) ∧
    containsSub "Error: boom".data "Error:".data = true ∧
    formattingHelper ⟨"file:///t.py", "b\n".data⟩
        (some ⟨"a\n".data, "Error: boom".data⟩) ≠ none := by
  refine ⟨by decide, by decide, ?_⟩
  decide

/-- C4 (amended): in format_server.py `_format`, a run whose stderr is
non-empty and contains an error marker ("Error:" or "error:") yields no
edit; lsp_server.py `_formatting_helper` performs no such stderr check and
returns the stdout-based whole-document edit whenever stdout is non-empty
and the reconciled text differs from the document. -/
theorem C4_stderr_error_no_edit (d : Document) (r : RunResult) :
    (r.stderr ≠ [] →
      (containsSub r.stderr "Error:".data = true ∨
        containsSub r.stderr "error:".data = true) →
      formatFS d r = none) ∧
    (r.stdout ≠ [] → newSourceFor d r.stdout ≠ d.source →
      formattingHelper d (some r) = some [fullDocEdit d (newSourceFor d r.stdout)]) := by
  constructor
  · intro h1 h2
    have h2' : 0 ≤ pyFind r.stderr "Error:".data ∨
        0 ≤ pyFind r.stderr "error:".data :=
      h2.imp (fun h => (find_nonneg_iff_contains _ _).mpr h)
        (fun h => (find_nonneg_iff_contains _ _).mpr h)
    rw [formatFS, if_pos ⟨h1, h2'⟩]
  · intro h1 h2
    simp [formattingHelper, h1, h2]

/-- Witness for C4's amended theorem: a concrete erroring run yields no
edit from `_format`, and a concrete clean run yields the stdout edit from
`_formatting_helper`. -/
theorem C4_stderr_error_no_edit_witness :
    formatFS ⟨"file:///t.py", "b\n".data⟩ ⟨"a\n".data, "Error: boom".data⟩
        = none ∧
    formattingHelper ⟨"file:///t.py", "b\n".data⟩ (some ⟨"a\n".data, [].reverse⟩)
        = some [fullDocEdit ⟨"file:///t.py", "b\n".data⟩
            (newSourceFor ⟨"file:///t.py", "b\n".data⟩ "a\n".data)] :=
  ⟨(C4_stderr_error_no_edit ⟨"file:///t.py", "b\n".data⟩
      ⟨"a\n".data, "Error: boom".data⟩).1 (by decide) (Or.inl (by decide)),
   (C4_stderr_error_no_edit ⟨"file:///t.py", "b\n".data⟩
      ⟨"a\n".data, [].reverse⟩).2 (by decide) (by decide)⟩

/-- C5: code-action resolve attaches the formatting edit and clears the
document's diagnostics when the formatting run yields a change; when it
yields none (including on tool error) it attaches a whole-document edit
whose text is the original source (line 0 col 0 through the line count
col 0) and leaves the diagnostics exactly as they were. -/
theorem C5_resolve_edit_and_diags (d : Document)
    (fmt : Option (List TextEdit)) (diags : List Diagnostic) :
    (∀ es, fmt = some es → codeActionResolve d fmt diags = (es, [])) ∧
    (fmt = none →
      codeActionResolve d fmt diags = ([fullDocEdit d d.source], diags)) := by
  constructor
  · intro es h
    subst h
    rfl
  · intro h
    subst h
    rfl

/-- Witness for C5: a concrete resolve with a change clears diagnostics; a
concrete failed resolve returns the original text and keeps them. -/
theorem C5_resolve_edit_and_diags_witness :
    codeActionResolve ⟨"file:///a.py", "import a\n".data⟩
        (some [fullDocEdit ⟨"file:///a.py", "import a\n".data⟩ "import b\n".data])
        [{ range := { startLine := 0, startChar := 0, endLine := 1, endChar := 0 },
           message := "m", severity := .Warning, code := "E", source := "isort" }]
      = ([fullDocEdit ⟨"file:///a.py", "import a\n".data⟩ "import b\n".data], []) ∧
    codeActionResolve ⟨"file:///a.py", "import a\n".data⟩ none
        [{ range := { startLine := 0, startChar := 0, endLine := 1, endChar := 0 },
           message := "m", severity := .Warning, code := "E", source := "isort" }]
      = ([fullDocEdit ⟨"file:///a.py", "import a\n".data⟩ "import a\n".data],
         [{ range := { startLine := 0, startChar := 0, endLine := 1, endChar := 0 },
            message := "m", severity := .Warning, code := "E", source := "isort" }]) :=
  ⟨(C5_resolve_edit_and_diags ⟨"file:///a.py", "import a\n".data⟩
      (some [fullDocEdit ⟨"file:///a.py", "import a\n".data⟩ "import b\n".data])
      [{ range := { startLine := 0, startChar := 0, endLine := 1, endChar := 0 },
         message := "m", severity := .Warning, code := "E", source := "isort" }]).1
      _ rfl,
   (C5_resolve_edit_and_diags ⟨"file:///a.py", "import a\n".data⟩ none
      [{ range := { startLine := 0, startChar := 0, endLine := 1, endChar := 0 },
         message := "m", severity := .Warning, code := "E", source := "isort" }]).2
      rfl⟩

end VSIsort

namespace VSIsort

/-- C9: for notebook-cell documents the edit builder strips exactly one
trailing line terminator (`\r\n` or `\n`) from the reconciled tool output,
so the edit's text never ends with a terminator when the tool's output
appended one. -/
theorem C9_notebook_trailing_newline (d : Document) (r : RunResult)
    (hnb : pyStartsWith d.uri.data NOTEBOOK_SCHEME = true) :
    (formattingHelper d (some r) = none ∨
      formattingHelper d (some r) =
        some [fullDocEdit d (stripNotebookEol (matchLineEndings d r.stdout))]) ∧
    (∀ t : Str, pyEndsWith t ['\r', '\n'] = true →
      stripNotebookEol t = t.dropLast.dropLast) ∧
    (∀ t : Str, pyEndsWith t ['\r', '\n'] = false →
      pyEndsWith t ['\n'] = true → stripNotebookEol t = t.dropLast) ∧
    (∀ t : Str, pyEndsWith t ['\n'] = false → pyEndsWith t ['\r'] = false →
      stripNotebookEol (t ++ ['\n']) = t ∧
      pyEndsWith (stripNotebookEol (t ++ ['\n'])) ['\n'] = false ∧
      pyEndsWith (stripNotebookEol (t ++ ['\n'])) ['\r'] = false) := by
  refine ⟨?_, ?_, ?_, ?_⟩
  · by_cases h1 : r.stdout ≠ []
    · by_cases h2 : newSourceFor d r.stdout ≠ d.source
      · right
        have h2' : stripNotebookEol (matchLineEndings d r.stdout) ≠ d.source := by
          simpa [newSourceFor, hnb] using h2
        simp [formattingHelper, newSourceFor, hnb, h1, h2']
      · left
        simp [formattingHelper, h1, h2]
    · left
      simp [formattingHelper, h1]
  · intro t h
    simp [stripNotebookEol, h]
  · intro t h1 h2
    simp [stripNotebookEol, h1, h2]
  · intro t h1 h2
    have hrn : pyEndsWith (t ++ ['\n']) ['\r', '\n'] = false := by
      simpa [pyEndsWith, List.isSuffixOf, List.isPrefixOf] using h2
    have hn : pyEndsWith (t ++ ['\n']) ['\n'] = true := by
      simp [pyEndsWith, List.isSuffixOf, List.isPrefixOf]
    have hstrip : stripNotebookEol (t ++ ['\n']) = t := by
      simp [stripNotebookEol, hrn, hn, List.dropLast_concat]
    exact ⟨hstrip, by rw [hstrip]; exact h1, by rw [hstrip]; exact h2⟩

/-- Witness for C9: a concrete notebook-cell document whose tool output
ends with one appended newline yields an edit without the trailing
terminator. -/
theorem C9_notebook_trailing_newline_witness :
    (formattingHelper ⟨"vscode-notebook-cell:///nb.ipynb#c1", "import b\nimport a".data⟩
        (some ⟨"import a\nimport b\n".data, []⟩) = none ∨
      formattingHelper ⟨"vscode-notebook-cell:///nb.ipynb#c1", "import b\nimport a".data⟩
        (some ⟨"import a\nimport b\n".data, []⟩) =
        some [fullDocEdit ⟨"vscode-notebook-cell:///nb.ipynb#c1", "import b\nimport a".data⟩
          (stripNotebookEol (matchLineEndings
            ⟨"vscode-notebook-cell:///nb.ipynb#c1", "import b\nimport a".data⟩
            "import a\nimport b\n".data))]) ∧
    stripNotebookEol ("import a\nimport b".data ++ ['\n']) = "import a\nimport b".data :=
  ⟨(C9_notebook_trailing_newline
      ⟨"vscode-notebook-cell:///nb.ipynb#c1", "import b\nimport a".data⟩
      ⟨"import a\nimport b\n".data, []⟩ (by decide)).1,
   ((C9_notebook_trailing_newline
      ⟨"vscode-notebook-cell:///nb.ipynb#c1", "import b\nimport a".data⟩
      ⟨"import a\nimport b\n".data, []⟩ (by decide)).2.2.2
      "import a\nimport b".data (by decide) (by decide)).1⟩

end VSIsort

namespace VSIsort

/- ********************************************************************
   Settings resolution (C2).

   Embedded from lsp_server.py `_get_document_key` (lines 562-574) and
   `_get_settings_by_document` (lines 577-592).  Filesystem paths are
   modelled as lists of path segments under the root, so `pathlib`'s
   `.parent` is `dropLast`, the root is `[]` (where `p == p.parent`), and
   `lsp_utils.normalize_path` is the identity on this normalized
   representation.  `WORKSPACE_SETTINGS` is modelled as an association
   list in insertion order, whose keys equal the `workspaceFS` field
   `_update_workspace_settings` stores.
   ******************************************************************** -/

/-- A normalized absolute filesystem path as its list of segments. -/
abbrev FsPath := List String

/-- The result of `_get_global_defaults()` (lsp_server.py lines 518-527):
the global settings with the per-field fallbacks already applied. -/
structure GlobalSettings where
  check : Bool
  path : List String
  severity : List (String × String)
  interpreter : List String
  args : List String
  importStrategy : String
  showNotifications : String
deriving DecidableEq, Repr

/-- A resolved workspace settings record.  The `workspace` field stores
the filesystem path underlying the `uris.from_fs_path` URI. -/
structure WsSettings where
  cwd : FsPath
  workspaceFS : FsPath
  workspace : FsPath
  check : Bool
  path : List String
  severity : List (String × String)
  interpreter : List String
  args : List String
  importStrategy : String
  showNotifications : String
deriving DecidableEq, Repr

/-- The settings record `_get_settings_by_document` synthesizes for a
non-workspace file: the document's parent directory as cwd/workspaceFS/
workspace, filled with the global defaults. -/
def synthSettings (g : GlobalSettings) (key : FsPath) : WsSettings :=
  { cwd := key, workspaceFS := key, workspace := key,
    check := g.check, path := g.path, severity := g.severity,
    interpreter := g.interpreter, args := g.args,
    importStrategy := g.importStrategy,
    showNotifications := g.showNotifications }

/-- The upward walk of `_get_document_key` over the reversed path:
dropping the head of the reversed path is taking the `.parent`.  Stated
over the reversed segments so the recursion is structural. -/
def walkKeyAux (roots : List FsPath) : List String → Option FsPath
  | [] => none
  | s :: rest =>
    if (s :: rest).reverse ∈ roots then some ((s :: rest).reverse)
    else walkKeyAux roots rest

/-- The upward walk of `_get_document_key`: test the document path itself,
then each ancestor, against the registered workspace roots; stop at the
filesystem root (where `path == path.parent`). -/
def walkKey (roots : List FsPath) (p : FsPath) : Option FsPath :=
  walkKeyAux roots p.reverse

/-- The walk satisfies the loop's step equation on the path itself. -/
theorem walkKey_cons {roots : List FsPath} {p : FsPath} (hp : p ≠ []) :
    walkKey roots p =
      if p ∈ roots then some p else walkKey roots p.dropLast := by
  cases hr : p.reverse with
  | nil => exact absurd (by simpa using congrArg List.reverse hr) hp
  | cons r rtail =>
    have hpe : p = (r :: rtail).reverse := by
      rw [← hr, List.reverse_reverse]
    have hdl : p.dropLast = rtail.reverse := by
      rw [hpe]
      simp [List.reverse_cons, List.dropLast_concat]
    rw [walkKey, hr, walkKeyAux, ← hpe, walkKey, hdl, List.reverse_reverse]

/-- `_get_document_key` (lsp_server.py lines 562-574). -/
def getDocumentKey (table : List (FsPath × WsSettings)) (docPath : FsPath) :
    Option FsPath :=
  if table = [] then none
  else walkKey (table.map (·.1)) docPath

/-- Python dict lookup `WORKSPACE_SETTINGS[key]` over the model table. -/
def lookupTable (table : List (FsPath × WsSettings)) (k : FsPath) :
    Option WsSettings :=
  (table.find? (fun e => e.1 = k)).map (·.2)

/-- `_get_settings_by_document` (lsp_server.py lines 577-592).  `docPath`
is `none` when the document is absent or has no path (in which case the
first registered record is returned; `none` models the IndexError on an
empty table). -/
def getSettingsByDocument (g : GlobalSettings)
    (table : List (FsPath × WsSettings)) (docPath : Option FsPath) :
    Option WsSettings :=
  match docPath with
  | none => table.head?.map (·.2)
  | some p =>
    match getDocumentKey table p with
    | none => some (synthSettings g p.dropLast)
    | some k => lookupTable table k

/-- A proper prefix is a prefix of the dropLast. -/
theorem prefix_dropLast_of_ne {a p : FsPath} (h : a <+: p) (hne : a ≠ p) :
    a <+: p.dropLast := by
  have hlt : a.length < p.length :=
    lt_of_le_of_ne h.length_le (fun he => hne (List.IsPrefix.eq_of_length h he))
  have h2 : a = p.take a.length := List.prefix_iff_eq_take.mp h
  rw [List.prefix_iff_eq_take, List.dropLast_eq_take, List.take_take]
  have hmin : min a.length (p.length - 1) = a.length := by omega
  rw [hmin]
  exact h2

/-- The walk returns the longest non-root prefix of the path registered as
a workspace root, and `none` exactly when there is no such prefix. -/
theorem walkKey_spec (roots : List FsPath) (p : FsPath) :
    (∀ k, walkKey roots p = some k →
      k ≠ [] ∧ k <+: p ∧ k ∈ roots ∧
      ∀ a, a ≠ [] → a <+: p → a ∈ roots → a.length ≤ k.length) ∧
    (walkKey roots p = none → ∀ a, a ≠ [] → a <+: p → a ∉ roots) := by
  suffices h : ∀ n (q : FsPath), q.length = n →
      ((∀ k, walkKey roots q = some k →
        k ≠ [] ∧ k <+: q ∧ k ∈ roots ∧
        ∀ a, a ≠ [] → a <+: q → a ∈ roots → a.length ≤ k.length) ∧
      (walkKey roots q = none → ∀ a, a ≠ [] → a <+: q → a ∉ roots)) by
    exact h p.length p rfl
  intro n
  induction n using Nat.strong_induction_on with
  | _ n ih =>
    intro p hn
    cases p with
    | nil =>
      constructor
      · intro k hk
        simp [walkKey, walkKeyAux] at hk
      · intro _ a ha hpre
        exact absurd (List.prefix_nil.mp hpre) ha
    | cons s rest =>
      rw [walkKey_cons (by simp)]
      by_cases hmem : (s :: rest) ∈ roots
      · rw [if_pos hmem]
        constructor
        · intro k hk
          cases hk
          exact ⟨by simp, List.prefix_refl _, hmem,
            fun a _ hpre _ => hpre.length_le⟩
        · intro h
          cases h
      · rw [if_neg hmem]
        have hlen : (s :: rest).dropLast.length < n := by
          subst hn
          simp
        have ihd := ih _ hlen ((s :: rest).dropLast) rfl
        constructor
        · intro k hk
          obtain ⟨hk1, hk2, hk3, hk4⟩ := ihd.1 k hk
          refine ⟨hk1, hk2.trans ( List.dropLast_prefix _), hk3, ?_⟩
          intro a ha hpre hr
          have hane : a ≠ s :: rest := fun he => hmem (he ▸ hr)
          exact hk4 a ha (prefix_dropLast_of_ne hpre hane) hr
        · intro h a ha hpre hr
          have hane : a ≠ s :: rest := fun he => hmem (he ▸ hr)
          exact ihd.2 h a ha (prefix_dropLast_of_ne hpre hane) hr

end VSIsort

namespace VSIsort

/-- Counterexample to C2 as stated: with exactly one registered workspace
(`/home/user/proj`) and a document outside it (`/tmp/other/doc.py`),
`_get_settings_by_document` does not return the registered workspace's
settings — it synthesizes a record from the document's parent directory
filled with global defaults. -/
theorem C2_counterexample :
    getSettingsByDocument
        ⟨false, [], [], [], [], "useBundled", "off"⟩
        [(["home", "user", "proj"],
          { cwd := ["home", "user", "proj"],
            workspaceFS := ["home", "user", "proj"],
            workspace := ["home", "user", "proj"],
            check := true, path := [], severity := [], interpreter := [],
            args := [], importStrategy := "useBundled",
            showNotifications := "off" })]
        (some ["tmp", "other", "doc.py"])
      = some (synthSettings ⟨false, [], [], [], [], "useBundled", "off"⟩
          ["tmp", "other"]) ∧
    synthSettings ⟨false, [], [], [], [], "useBundled", "off"⟩
        ["tmp", "other"] ≠
      { cwd := ["home", "user", "proj"],
        workspaceFS := ["home", "user", "proj"],
        workspace := ["home", "user", "proj"],
        check := true, path := [], severity := [], interpreter := [],
        args := [], importStrategy := "useBundled",
        showNotifications := "off" } := by
  constructor
  · rfl
  · decide

/-- C2 (amended): settings resolution walks from the document's path (the
file itself, then its ancestors) upward and returns the settings of the
first — hence closest-enclosing — registered workspace root it meets; if
no registered root encloses the path, a record synthesized from the
document's own parent directory filled with global defaults is returned,
regardless of how many workspaces are registered; the first registered
workspace's settings are used only when the document is absent or has no
path. -/
theorem C2_settings_resolution (g : GlobalSettings)
    (table : List (FsPath × WsSettings)) (p : FsPath) :
    (∀ k0 s0 rest, table = (k0, s0) :: rest →
      getSettingsByDocument g table none = some s0) ∧
    (∀ k, getDocumentKey table p = some k →
      k ≠ [] ∧ k <+: p ∧ k ∈ table.map (·.1) ∧
      (∀ a, a ≠ [] → a <+: p → a ∈ table.map (·.1) → a.length ≤ k.length) ∧
      getSettingsByDocument g table (some p) = lookupTable table k) ∧
    (getDocumentKey table p = none →
      (∀ a, a ≠ [] → a <+: p → a ∉ table.map (·.1)) ∧
      getSettingsByDocument g table (some p)
        = some (synthSettings g p.dropLast)) := by
  refine ⟨?_, ?_, ?_⟩
  · rintro k0 s0 rest rfl
    rfl
  · intro k hk
    have htne : table ≠ [] := by
      intro h
      rw [h] at hk
      simp [getDocumentKey] at hk
    have hw : walkKey (table.map (·.1)) p = some k := by
      rw [getDocumentKey, if_neg htne] at hk
      exact hk
    obtain ⟨h1, h2, h3, h4⟩ := (walkKey_spec _ p).1 k hw
    exact ⟨h1, h2, h3, h4, by simp [getSettingsByDocument, hk]⟩
  · intro hk
    constructor
    · intro a ha hpre hmem
      by_cases ht : table = []
      · rw [ht] at hmem
        simp at hmem
      · have hw : walkKey (table.map (·.1)) p = none := by
          rw [getDocumentKey, if_neg ht] at hk
          exact hk
        exact (walkKey_spec _ p).2 hw a ha hpre hmem
    · simp [getSettingsByDocument, hk]

/-- Witness for C2's amended theorem: with roots `/a` and `/a/b`
registered, a document at `/a/b/c.py` resolves to the closest root
`/a/b`, and with no document the first record is returned. -/
theorem C2_settings_resolution_witness :
    getSettingsByDocument ⟨false, [], [], [], [], "useBundled", "off"⟩
        [(["a"], synthSettings ⟨true, [], [], [], [], "useBundled", "off"⟩ ["a"]),
         (["a", "b"], synthSettings ⟨false, [], [], [], [], "useBundled", "off"⟩ ["a", "b"])]
        (some ["a", "b", "c.py"])
      = lookupTable
          [(["a"], synthSettings ⟨true, [], [], [], [], "useBundled", "off"⟩ ["a"]),
           (["a", "b"], synthSettings ⟨false, [], [], [], [], "useBundled", "off"⟩ ["a", "b"])]
          ["a", "b"] ∧
    getSettingsByDocument ⟨false, [], [], [], [], "useBundled", "off"⟩
        [(["a"], synthSettings ⟨true, [], [], [], [], "useBundled", "off"⟩ ["a"]),
         (["a", "b"], synthSettings ⟨false, [], [], [], [], "useBundled", "off"⟩ ["a", "b"])]
        none
      = some (synthSettings ⟨true, [], [], [], [], "useBundled", "off"⟩ ["a"]) :=
  ⟨((C2_settings_resolution ⟨false, [], [], [], [], "useBundled", "off"⟩
      [(["a"], synthSettings ⟨true, [], [], [], [], "useBundled", "off"⟩ ["a"]),
       (["a", "b"], synthSettings ⟨false, [], [], [], [], "useBundled", "off"⟩ ["a", "b"])]
      ["a", "b", "c.py"]).2.1 ["a", "b"] (by decide)).2.2.2.2,
   (C2_settings_resolution ⟨false, [], [], [], [], "useBundled", "off"⟩
      [(["a"], synthSettings ⟨true, [], [], [], [], "useBundled", "off"⟩ ["a"]),
       (["a", "b"], synthSettings ⟨false, [], [], [], [], "useBundled", "off"⟩ ["a", "b"])]
      ["a", "b", "c.py"]).1 _ _ _ rfl⟩

end VSIsort

namespace VSIsort

/- ********************************************************************
   Working-directory resolution (C6, C7).

   Embedded from lsp_server.py `get_cwd` (lines 598-652).  The os.path
   helpers below model the posix implementations (`dirname`, `basename`,
   `splitext`, `relpath`) for the string paths the server handles;
   `relpath` is modelled for normalized absolute inputs, where Python's
   internal `abspath` is the identity, and raises ValueError("no path
   specified") on an empty path exactly as posixpath.relpath does.
   ******************************************************************** -/

/-- Python `str.rfind` restricted to a single character: the last index of
`c` in `s`, or `-1`. -/
def pyRfindChar (s : Str) (c : Char) : Int :=
  match s.reverse.findIdx? (· == c) with
  | some i => (s.length : Int) - 1 - i
  | none => -1

/-- posixpath.dirname. -/
def pyDirname (p : Str) : Str :=
  let i : Int := pyRfindChar p '/' + 1
  let head := p.take i.toNat
  if head ≠ [] ∧ ¬ head.all (· == '/') then
    (head.reverse.dropWhile (· == '/')).reverse
  else head

/-- posixpath.basename. -/
def pyBasename (p : Str) : Str :=
  let i : Int := pyRfindChar p '/' + 1
  p.drop i.toNat

/-- posixpath.splitext: split off the extension at the last dot of the
basename, unless the basename up to it is all dots. -/
def pySplitext (p : Str) : Str × Str :=
  let sepIndex := pyRfindChar p '/'
  let dotIndex := pyRfindChar p '.'
  if sepIndex < dotIndex then
    let between := (p.take dotIndex.toNat).drop (sepIndex + 1).toNat
    if between.any (· != '.') then (p.take dotIndex.toNat, p.drop dotIndex.toNat)
    else (p, [])
  else (p, [])

/-- Length of the common prefix of two segment lists (the
`commonprefix([start_list, path_list])` step of posixpath.relpath). -/
def commonLen : List Str → List Str → Nat
  | x :: xs, y :: ys => if x = y then commonLen xs ys + 1 else 0
  | _, _ => 0

/-- Joining path segments with `/` (`posixpath.join` on relative
segments). -/
def joinSlash : List Str → Str
  | [] => []
  | [x] => x
  | x :: xs => x ++ '/' :: joinSlash xs

/-- The non-empty `/`-separated components of a path. -/
def pathComps (s : Str) : List Str :=
  (s.splitOn '/').filter (· ≠ [])

/-- posixpath.relpath for normalized absolute inputs.  An empty `path`
raises `ValueError("no path specified")`. -/
def pyRelpath (path start : Str) : Except String Str :=
  if path = [] then .error "no path specified"
  else
    let pl := pathComps path
    let sl := pathComps start
    let i := commonLen sl pl
    let rel := List.replicate (sl.length - i) "..".data ++ pl.drop i
    if rel = [] then .ok ['.']
    else .ok (joinSlash rel)

/-- The substitution table of `get_cwd` in its dict-insertion order: each
recognized placeholder with its document-derived value.  Building the
table evaluates `os.path.relpath`, which can raise. -/
def substitutionPairs (filePath workspaceFS : Str) :
    Except String (List (Str × Str)) := do
  let fileDir := pyDirname filePath
  let fileBasename := pyBasename filePath
  let se := pySplitext fileBasename
  let relFile ← pyRelpath filePath workspaceFS
  let relDir ← pyRelpath fileDir workspaceFS
  return [("${file}".data, filePath),
    ("${fileBasename}".data, fileBasename),
    ("${fileBasenameNoExtension}".data, se.1),
    ("${fileExtname}".data, se.2),
    ("${fileDirname}".data, fileDir),
    ("${fileDirnameBasename}".data, pyBasename fileDir),
    ("${relativeFile}".data, relFile),
    ("${relativeFileDirname}".data, relDir),
    ("${fileWorkspaceFolder}".data, workspaceFS)]

/-- The nine placeholder tokens, in substitution order. -/
def cwdTokens : List Str :=
  ["${file}".data, "${fileBasename}".data, "${fileBasenameNoExtension}".data,
   "${fileExtname}".data, "${fileDirname}".data, "${fileDirnameBasename}".data,
   "${relativeFile}".data, "${relativeFileDirname}".data,
   "${fileWorkspaceFolder}".data]

/-- The settings fields `get_cwd` reads: the optional cwd template and the
workspace root. -/
structure CwdSettings where
  cwd : Option Str
  workspaceFS : Str
deriving DecidableEq, Repr

/-- `get_cwd` (lsp_server.py lines 598-652).  `doc` is
`_get_document_path(document)` when a document object is passed (`some []`
for a document whose path is empty), `none` when `document is None`. -/
def getCwd (s : CwdSettings) (doc : Option Str) : Except String Str :=
  let cwd := s.cwd.getD s.workspaceFS
  match doc with
  | some filePath =>
    match substitutionPairs filePath s.workspaceFS with
    | .error e => .error e
    | .ok pairs =>
      .ok (pairs.foldl (fun acc kv => pyReplace acc kv.1 kv.2) cwd)
  | none =>
    if containsSub cwd "$\x7bfile".data || containsSub cwd "$\x7brelativeFile".data
    then .ok s.workspaceFS
    else .ok cwd

end VSIsort

namespace VSIsort

/-- Characterization of list-prefix testing. -/
theorem isPrefixOf_iff_exists (l : List Char) : ∀ s : List Char,
    l.isPrefixOf s = true ↔ ∃ r, s = l ++ r := by
  induction l with
  | nil =>
    intro s
    simp [List.isPrefixOf]
  | cons a l ih =>
    intro s
    cases s with
    | nil => simp [List.isPrefixOf]
    | cons b s' =>
      simp only [List.isPrefixOf, Bool.and_eq_true, beq_iff_eq, ih,
        List.cons_append, List.cons.injEq]
      constructor
      · rintro ⟨rfl, r, rfl⟩
        exact ⟨r, rfl, rfl⟩
      · rintro ⟨r, rfl, rfl⟩
        exact ⟨rfl, r, rfl⟩

/-- A string starting with the whole pattern passes the test. -/
theorem isPrefixOf_self_append (l r : List Char) :
    l.isPrefixOf (l ++ r) = true :=
  (isPrefixOf_iff_exists l (l ++ r)).mpr ⟨r, rfl⟩

/-- Containment is monotone under pattern prefixes. -/
theorem contains_of_contains_pre (pat pat' : Str)
    (hp : pat.isPrefixOf pat' = true) : ∀ s : Str,
    containsSub s pat' = true → containsSub s pat = true := by
  intro s
  induction s with
  | nil =>
    intro h
    simp only [containsSub, occIdx] at h ⊢
    rcases (isPrefixOf_iff_exists _ _).mp hp with ⟨r, hr⟩
    by_cases h' : pat' = ([] : Str)
    · have : pat = [] := by
        rw [h'] at hr
        rcases List.append_eq_nil.mp hr.symm with ⟨h1, -⟩
        exact h1
      simp [this]
    · simp [h'] at h
  | cons c rest ih =>
    intro h
    simp only [containsSub, occIdx] at h ⊢
    by_cases hcur : pat.isPrefixOf (c :: rest) = true
    · simp [hcur]
    · simp only [hcur, Bool.false_eq_true, if_false]
      by_cases hcur' : pat'.isPrefixOf (c :: rest) = true
      · rcases (isPrefixOf_iff_exists _ _).mp hcur' with ⟨r, hr⟩
        rcases (isPrefixOf_iff_exists _ _).mp hp with ⟨r', hr'⟩
        have : pat.isPrefixOf (c :: rest) = true := by
          rw [hr, hr', List.append_assoc]
          exact isPrefixOf_self_append _ _
        exact absurd this hcur
      · simp only [hcur', Bool.false_eq_true, if_false] at h
        have h2 : containsSub rest pat' = true := by
          rcases Option.map_eq_some'.mp (Option.isSome_iff_exists.mp h).choose_spec
            with ⟨a, ha, -⟩
          simp [containsSub, ha]
        have := ih h2
        simp only [containsSub] at this
        rcases Option.isSome_iff_exists.mp this with ⟨a, ha⟩
        simp [ha]

end VSIsort

namespace VSIsort

/-- Replacement walks over a block containing no `$` when the pattern
starts with `$`. -/
theorem replaceGo_no_dollar (ptl new : Str) : ∀ (l rest : Str),
    '$' ∉ l →
    replaceGo ('$' :: ptl) new 0 (l ++ rest)
      = l ++ replaceGo ('$' :: ptl) new 0 rest := by
  intro l
  induction l with
  | nil => intro rest _; rfl
  | cons c l ih =>
    intro rest hl
    have hc : ('$' : Char) ≠ c := fun h => hl (h ▸ List.mem_cons_self c l)
    show replaceGo ('$' :: ptl) new 0 (c :: (l ++ rest)) = _
    have hp : ('$' :: ptl).isPrefixOf (c :: (l ++ rest)) = false := by
      simp [List.isPrefixOf, hc]
    simp only [replaceGo, hp, Bool.false_eq_true, if_false, List.cons_append]
    rw [ih rest (fun h => hl (List.mem_cons_of_mem c h))]

/-- After a replacement the remaining pattern characters are skipped. -/
theorem replaceGo_skip (pat new : Str) : ∀ (l rest : Str),
    replaceGo pat new l.length (l ++ rest) = replaceGo pat new 0 rest := by
  intro l
  induction l with
  | nil => intro rest; rfl
  | cons c l ih => intro rest; exact ih rest

/-- Replacement substitutes a block that is exactly the pattern. -/
theorem replaceGo_self (p0 : Char) (ptl new rest : Str) :
    replaceGo (p0 :: ptl) new 0 ((p0 :: ptl) ++ rest)
      = new ++ replaceGo (p0 :: ptl) new 0 rest := by
  show replaceGo (p0 :: ptl) new 0 (p0 :: (ptl ++ rest)) = _
  have hp : (p0 :: ptl).isPrefixOf (p0 :: (ptl ++ rest)) = true := by
    show (p0 :: ptl).isPrefixOf ((p0 :: ptl) ++ rest) = true
    exact isPrefixOf_self_append _ _
  simp only [replaceGo, hp, if_true, List.length_cons, Nat.add_sub_cancel]
  rw [show ptl.length = ptl.length from rfl, replaceGo_skip]

/-- If neither of two strings is a prefix of the other, the first does
not become a prefix after extending the second. -/
theorem isPrefixOf_false_append (a b r : List Char)
    (h1 : a.isPrefixOf b = false) (h2 : b.isPrefixOf a = false) :
    a.isPrefixOf (b ++ r) = false := by
  by_contra hcon
  rw [Bool.not_eq_false] at hcon
  rcases (isPrefixOf_iff_exists _ _).mp hcon with ⟨q, hq⟩
  by_cases hlen : a.length ≤ b.length
  · have htake := congrArg (List.take a.length) hq
    rw [List.take_append_of_le_length hlen, List.take_left] at htake
    have : a.isPrefixOf b = true := by
      rw [isPrefixOf_iff_exists]
      refine ⟨b.drop a.length, ?_⟩
      nth_rewrite 1 [← htake]
      rw [List.take_append_drop]
    rw [h1] at this
    cases this
  · push_neg at hlen
    have hble : b.length ≤ a.length := le_of_lt hlen
    have htake := congrArg (List.take b.length) hq.symm
    rw [List.take_append_of_le_length hble, List.take_left] at htake
    have : b.isPrefixOf a = true := by
      rw [isPrefixOf_iff_exists]
      refine ⟨a.drop b.length, ?_⟩
      nth_rewrite 1 [← htake]
      rw [List.take_append_drop]
    rw [h2] at this
    cases this

/-- Replacement walks over a block that is a different placeholder: one
starting with `$`, `$`-free afterwards, neither a prefix of the pattern
nor extended by it. -/
theorem replaceGo_other_token (ptl new ttl : Str) (rest : Str)
    (htl : '$' ∉ ttl)
    (hnp1 : ('$' :: ptl).isPrefixOf ('$' :: ttl) = false)
    (hnp2 : ('$' :: ttl).isPrefixOf ('$' :: ptl) = false) :
    replaceGo ('$' :: ptl) new 0 (('$' :: ttl) ++ rest)
      = ('$' :: ttl) ++ replaceGo ('$' :: ptl) new 0 rest := by
  have hnp : ('$' :: ptl).isPrefixOf (('$' :: ttl) ++ rest) = false :=
    isPrefixOf_false_append _ _ _ hnp1 hnp2
  show replaceGo ('$' :: ptl) new 0 ('$' :: (ttl ++ rest)) = _
  have hnp' : ('$' :: ptl).isPrefixOf ('$' :: (ttl ++ rest)) = false := hnp
  simp only [replaceGo, hnp', Bool.false_eq_true, if_false, List.cons_append]
  rw [replaceGo_no_dollar ptl new ttl rest htl]

end VSIsort

namespace VSIsort

/-- A parsed cwd template: literal pieces interleaved with placeholder
occurrences, each placeholder carried together with its substitution
value. -/
abbrev Chunk := Str ⊕ (Str × Str)

/-- The template text of a chunk (placeholders unexpanded). -/
def chunkTok : Chunk → Str
  | .inl l => l
  | .inr tv => tv.1

/-- The substituted text of a chunk (placeholders expanded). -/
def chunkVal : Chunk → Str
  | .inl l => l
  | .inr tv => tv.2

/-- The template string a chunk list denotes. -/
def renderTemplate (cs : List Chunk) : Str := (cs.map chunkTok).flatten

/-- The simultaneous substitution of every placeholder of a chunk list. -/
def renderResult (cs : List Chunk) : Str := (cs.map chunkVal).flatten

/-- Expanding the occurrences of one placeholder in a chunk list. -/
def replaceChunk (pat new : Str) : Chunk → Chunk
  | .inl l => .inl l
  | .inr tv => if tv.1 = pat then .inl new else .inr tv

/-- One `str.replace` pass expands exactly the chunks of its placeholder:
literal pieces and values are `$`-free and other placeholders are neither
prefixes nor extensions of the pattern, so no other occurrence can arise. -/
theorem replace_chunks_step (ptl new : Str) : ∀ (cs : List Chunk),
    (∀ c ∈ cs, (match c with
      | .inl l => '$' ∉ l
      | .inr (t, _) => t = '$' :: ptl ∨
          (∃ ttl, t = '$' :: ttl ∧ '$' ∉ ttl ∧
            ('$' :: ptl).isPrefixOf t = false ∧
            t.isPrefixOf ('$' :: ptl) = false) : Prop)) →
    replaceGo ('$' :: ptl) new 0 (renderTemplate cs)
      = renderTemplate (cs.map (replaceChunk ('$' :: ptl) new)) := by
  intro cs
  induction cs with
  | nil => intro _; rfl
  | cons c cs ih =>
    intro hcs
    have hc := hcs c (List.mem_cons_self c cs)
    have hrest := fun c hm => hcs c (List.mem_cons_of_mem _ hm)
    cases c with
    | inl l =>
      simp only [renderTemplate, List.map_cons, List.flatten_cons, chunkTok,
        replaceChunk]
      rw [replaceGo_no_dollar ptl new l _ hc]
      rw [show (cs.map chunkTok).flatten = renderTemplate cs from rfl,
        ih hrest]
      rfl
    | inr tv =>
      obtain ⟨t, v⟩ := tv
      simp only [renderTemplate, List.map_cons, List.flatten_cons, chunkTok]
      rcases hc with heq | ⟨ttl, hteq, httl, hp1, hp2⟩
      · subst heq
        rw [replaceGo_self]
        rw [show (cs.map chunkTok).flatten = renderTemplate cs from rfl,
          ih hrest]
        simp [replaceChunk, renderTemplate, chunkTok]
      · have htne : t ≠ '$' :: ptl := by
          intro he
          rw [he] at hp2
          have := isPrefixOf_self_append ('$' :: ptl) []
          rw [List.append_nil] at this
          rw [hp2] at this
          cases this
        subst hteq
        rw [replaceGo_other_token ptl new ttl _ httl hp1 hp2]
        rw [show (cs.map chunkTok).flatten = renderTemplate cs from rfl,
          ih hrest]
        simp [replaceChunk, renderTemplate, chunkTok, htne]

end VSIsort

namespace VSIsort

/-- Sequentially replacing each placeholder of the substitution table, in
table order, over a template made of `$`-free literals and placeholder
occurrences, computes the simultaneous substitution: every occurrence of
every placeholder is expanded to its value, in any combination. -/
theorem foldl_replace_chunks : ∀ (pairs : List (Str × Str)) (cs : List Chunk),
    (∀ t v, (t, v) ∈ pairs → (∃ ttl, t = '$' :: ttl ∧ '$' ∉ ttl) ∧ '$' ∉ v) →
    (∀ t v t' v', (t, v) ∈ pairs → (t', v') ∈ pairs → t ≠ t' →
      t.isPrefixOf t' = false) →
    (pairs.map Prod.fst).Nodup →
    (∀ l, Sum.inl l ∈ cs → '$' ∉ l) →
    (∀ t v, Sum.inr (t, v) ∈ cs → (t, v) ∈ pairs) →
    pairs.foldl (fun acc kv => pyReplace acc kv.1 kv.2) (renderTemplate cs)
      = renderResult cs := by
  intro pairs
  induction pairs with
  | nil =>
    intro cs _ _ _ hlit htok
    show renderTemplate cs = renderResult cs
    unfold renderTemplate renderResult
    congr 1
    apply List.map_congr_left
    intro c hm
    cases c with
    | inl l => rfl
    | inr tv => exact absurd (htok tv.1 tv.2 hm) (by simp)
  | cons p pairs ih =>
    intro cs hshape hpw hnd hlit htok
    obtain ⟨t0, v0⟩ := p
    obtain ⟨⟨ttl0, ht0, ht0n⟩, hv0⟩ :=
      hshape t0 v0 (List.mem_cons_self _ _)
    subst ht0
    rw [List.foldl_cons]
    rw [List.map_cons] at hnd
    obtain ⟨hnotmem, hndtail⟩ := List.nodup_cons.mp hnd
    have hne_tok : ∀ t v, (t, v) ∈ pairs → t ≠ '$' :: ttl0 := by
      intro t v hm he
      have h1 : ('$' :: ttl0) ∈ pairs.map Prod.fst :=
        he ▸ List.mem_map_of_mem Prod.fst hm
      exact hnotmem h1
    have hstep := replace_chunks_step ttl0 v0 cs ?hcs
    case hcs =>
      intro c hm
      cases c with
      | inl l => exact hlit l hm
      | inr tv =>
        obtain ⟨t, v⟩ := tv
        rcases List.mem_cons.mp (htok t v hm) with heq | hmem
        · left
          exact congrArg Prod.fst heq
        · right
          obtain ⟨⟨ttl, hteq, httl⟩, -⟩ :=
            hshape t v (List.mem_cons_of_mem _ hmem)
          have htne := hne_tok t v hmem
          refine ⟨ttl, hteq, httl, ?_, ?_⟩
          · exact hpw ('$' :: ttl0) v0 t v (List.mem_cons_self _ _)
              (List.mem_cons_of_mem _ hmem) (fun h => htne h.symm)
          · exact hpw t v ('$' :: ttl0) v0 (List.mem_cons_of_mem _ hmem)
              (List.mem_cons_self _ _) htne
    have hpy : pyReplace (renderTemplate cs) ('$' :: ttl0) v0
        = renderTemplate (cs.map (replaceChunk ('$' :: ttl0) v0)) := hstep
    rw [hpy]
    have hres : renderResult (cs.map (replaceChunk ('$' :: ttl0) v0))
        = renderResult cs := by
      unfold renderResult
      rw [List.map_map]
      apply congrArg
      apply List.map_congr_left
      intro c hm
      cases c with
      | inl l => rfl
      | inr tv =>
        obtain ⟨t, v⟩ := tv
        show chunkVal (replaceChunk ('$' :: ttl0) v0 (Sum.inr (t, v)))
          = chunkVal (Sum.inr (t, v))
        by_cases he : t = '$' :: ttl0
        · rcases List.mem_cons.mp (htok t v hm) with heq | hmem
          · have hv : v = v0 := congrArg Prod.snd heq
            simp [replaceChunk, chunkVal, he, hv]
          · exact absurd he (hne_tok t v hmem)
        · simp [replaceChunk, chunkVal, he]
    rw [← hres]
    apply ih
    · intro t v hm
      exact hshape t v (List.mem_cons_of_mem _ hm)
    · intro t v t' v' hm hm' hne
      exact hpw t v t' v' (List.mem_cons_of_mem _ hm)
        (List.mem_cons_of_mem _ hm') hne
    · exact hndtail
    · intro l hm
      rcases List.mem_map.mp hm with ⟨c, hc, hceq⟩
      cases c with
      | inl l' =>
        have : l' = l := by
          simpa [replaceChunk] using hceq
        exact this ▸ hlit l' hc
      | inr tv =>
        obtain ⟨t, v⟩ := tv
        by_cases he : t = '$' :: ttl0
        · have hv : v0 = l := by
            simpa [replaceChunk, he] using hceq
          exact hv ▸ hv0
        · simp [replaceChunk, he] at hceq
    · intro t v hm
      rcases List.mem_map.mp hm with ⟨c, hc, hceq⟩
      cases c with
      | inl l' => simp [replaceChunk] at hceq
      | inr tv =>
        obtain ⟨t', v'⟩ := tv
        by_cases he : t' = '$' :: ttl0
        · simp [replaceChunk, he] at hceq
        · have hpair : (t', v') = (t, v) := by
            simpa [replaceChunk, he] using hceq
          have ht : t' = t := congrArg Prod.fst hpair
          rcases List.mem_cons.mp (htok t' v' hc) with heq | hmem
          · exact absurd (congrArg Prod.fst heq) he
          · exact hpair ▸ hmem

end VSIsort

namespace VSIsort

/-- A successful substitution table carries exactly the nine placeholders,
in order. -/
theorem substitutionPairs_ok {filePath ws : Str} {pairs : List (Str × Str)}
    (h : substitutionPairs filePath ws = Except.ok pairs) :
    pairs.map Prod.fst = cwdTokens := by
  unfold substitutionPairs at h
  dsimp only at h
  cases h1 : pyRelpath filePath ws with
  | error e =>
    rw [h1] at h
    simp [Bind.bind, Except.bind] at h
  | ok rf =>
    rw [h1] at h
    cases h2 : pyRelpath (pyDirname filePath) ws with
    | error e =>
      rw [h2] at h
      simp [Bind.bind, Except.bind] at h
    | ok rd =>
      rw [h2] at h
      simp only [Bind.bind, Except.bind, pure, Except.pure, Except.ok.injEq] at h
      rw [← h]
      rfl

/-- Each placeholder starts with `$` and contains no further `$`. -/
theorem cwdTokens_shape : ∀ t ∈ cwdTokens, ∃ ttl, t = '$' :: ttl ∧ '$' ∉ ttl := by
  intro t ht
  fin_cases ht <;> exact ⟨_, rfl, by decide⟩

/-- No placeholder is a prefix of a different placeholder. -/
theorem cwdTokens_pairwise : ∀ t ∈ cwdTokens, ∀ t' ∈ cwdTokens, t ≠ t' →
    t.isPrefixOf t' = false := by decide

/-- The placeholders are distinct. -/
theorem cwdTokens_nodup : cwdTokens.Nodup := by decide

/-- C6: with a document present, `get_cwd` replaces every occurrence of
each of the nine recognized placeholders with its document-derived value,
in any combination within the template (stated for templates decomposed
into `$`-free literal pieces and placeholder occurrences, with `$`-free
substitution values); with no document available, a template containing no
`${` placeholder at all is returned verbatim, and a template containing
any of the nine document-dependent placeholders is discarded in favor of
the workspace root. -/
theorem C6_cwd_substitution (s : CwdSettings) :
    (∀ filePath pairs cs,
      substitutionPairs filePath s.workspaceFS = Except.ok pairs →
      (∀ t v, (t, v) ∈ pairs → '$' ∉ v) →
      s.cwd = some (renderTemplate cs) →
      (∀ l, Sum.inl l ∈ cs → '$' ∉ l) →
      (∀ t v, Sum.inr (t, v) ∈ cs → (t, v) ∈ pairs) →
      getCwd s (some filePath) = Except.ok (renderResult cs)) ∧
    (∀ cwd, s.cwd = some cwd → containsSub cwd "$\x7b".data = false →
      getCwd s none = Except.ok cwd) ∧
    (∀ cwd t, s.cwd = some cwd → t ∈ cwdTokens → containsSub cwd t = true →
      getCwd s none = Except.ok s.workspaceFS) := by
  refine ⟨?_, ?_, ?_⟩
  · intro filePath pairs cs hpairs hvals hcwd hlit htok
    have hfst := substitutionPairs_ok hpairs
    have hmemtok : ∀ t v, (t, v) ∈ pairs → t ∈ cwdTokens := by
      intro t v hm
      rw [← hfst]
      exact List.mem_map_of_mem Prod.fst hm
    simp only [getCwd, hcwd, Option.getD_some, hpairs]
    congr 1
    apply foldl_replace_chunks pairs cs
    · intro t v hm
      exact ⟨cwdTokens_shape t (hmemtok t v hm), hvals t v hm⟩
    · intro t v t' v' hm hm' hne
      exact cwdTokens_pairwise t (hmemtok t v hm) t' (hmemtok t' v' hm') hne
    · rw [hfst]
      exact cwdTokens_nodup
    · exact hlit
    · exact htok
  · intro cwd hcwd hnc
    have h1 : containsSub cwd "$\x7bfile".data = false := by
      by_contra hcon
      rw [Bool.not_eq_false] at hcon
      have := contains_of_contains_pre "$\x7b".data "$\x7bfile".data (by decide)
        cwd hcon
      rw [hnc] at this
      cases this
    have h2 : containsSub cwd "$\x7brelativeFile".data = false := by
      by_contra hcon
      rw [Bool.not_eq_false] at hcon
      have := contains_of_contains_pre "$\x7b".data "$\x7brelativeFile".data
        (by decide) cwd hcon
      rw [hnc] at this
      cases this
    simp [getCwd, hcwd, h1, h2]
  · intro cwd t hcwd ht hct
    have hor : containsSub cwd "$\x7bfile".data = true ∨
        containsSub cwd "$\x7brelativeFile".data = true := by
      fin_cases ht
      · exact Or.inl (contains_of_contains_pre _ _ (by decide) cwd hct)
      · exact Or.inl (contains_of_contains_pre _ _ (by decide) cwd hct)
      · exact Or.inl (contains_of_contains_pre _ _ (by decide) cwd hct)
      · exact Or.inl (contains_of_contains_pre _ _ (by decide) cwd hct)
      · exact Or.inl (contains_of_contains_pre _ _ (by decide) cwd hct)
      · exact Or.inl (contains_of_contains_pre _ _ (by decide) cwd hct)
      · exact Or.inr (contains_of_contains_pre _ _ (by decide) cwd hct)
      · exact Or.inr (contains_of_contains_pre _ _ (by decide) cwd hct)
      · exact Or.inl (contains_of_contains_pre _ _ (by decide) cwd hct)
    rcases hor with h | h <;> simp [getCwd, hcwd, h]

end VSIsort

namespace VSIsort

/-- Decidable equality for modelled Python call results. -/
instance exceptDecEq {e a : Type} [DecidableEq e] [DecidableEq a] :
    DecidableEq (Except e a) := fun x y =>
  match x, y with
  | .ok u, .ok v =>
    if h : u = v then isTrue (by rw [h]) else isFalse (by simp [h])
  | .error u, .error v =>
    if h : u = v then isTrue (by rw [h]) else isFalse (by simp [h])
  | .ok _, .error _ => isFalse (by simp)
  | .error _, .ok _ => isFalse (by simp)

/-- Witness for C6: the spec's own example — workspace
`/home/user/myproject`, document `/home/user/myproject/src/foo.py` — with
the template `${fileDirname}/${fileBasenameNoExtension}`, plus the two
no-document fallback behaviors. -/
theorem C6_cwd_substitution_witness :
    getCwd ⟨some "${fileDirname}/${fileBasenameNoExtension}".data,
        "/home/user/myproject".data⟩
        (some "/home/user/myproject/src/foo.py".data)
      = Except.ok "/home/user/myproject/src/foo".data ∧
    getCwd ⟨some "/custom/path".data, "/home/user/myproject".data⟩ none
      = Except.ok "/custom/path".data ∧
    getCwd ⟨some "${fileDirname}".data, "/home/user/myproject".data⟩ none
      = Except.ok "/home/user/myproject".data := by
  refine ⟨?_, ?_, ?_⟩
  · have h := (C6_cwd_substitution
      ⟨some "${fileDirname}/${fileBasenameNoExtension}".data,
        "/home/user/myproject".data⟩).1
      "/home/user/myproject/src/foo.py".data
      [("${file}".data, "/home/user/myproject/src/foo.py".data),
       ("${fileBasename}".data, "foo.py".data),
       ("${fileBasenameNoExtension}".data, "foo".data),
       ("${fileExtname}".data, ".py".data),
       ("${fileDirname}".data, "/home/user/myproject/src".data),
       ("${fileDirnameBasename}".data, "src".data),
       ("${relativeFile}".data, "src/foo.py".data),
       ("${relativeFileDirname}".data, "src".data),
       ("${fileWorkspaceFolder}".data, "/home/user/myproject".data)]
      [Sum.inr ("${fileDirname}".data, "/home/user/myproject/src".data),
       Sum.inl "/".data,
       Sum.inr ("${fileBasenameNoExtension}".data, "foo".data)]
      rfl
      (by
        intro t v hm
        simp only [List.mem_cons, List.not_mem_nil, or_false,
          Prod.mk.injEq] at hm
        rcases hm with h | h | h | h | h | h | h | h | h <;>
          (obtain ⟨rfl, rfl⟩ := h; decide))
      (by decide)
      (by
        intro l hm
        simp only [List.mem_cons, List.not_mem_nil, or_false] at hm
        rcases hm with h | h | h <;> cases h <;> decide)
      (by
        intro t v hm
        simp only [List.mem_cons, List.not_mem_nil, or_false] at hm
        rcases hm with h | h | h <;> cases h <;> decide)
    rw [h]
    rfl
  · exact (C6_cwd_substitution
      ⟨some "/custom/path".data, "/home/user/myproject".data⟩).2.1
      "/custom/path".data rfl (by decide)
  · exact (C6_cwd_substitution
      ⟨some "${fileDirname}".data, "/home/user/myproject".data⟩).2.2
      "${fileDirname}".data "${fileDirname}".data rfl (by decide) (by decide)

/-- C7: calling `get_cwd` with a document object whose path is empty is
NOT treated like the absent-document case: building the substitution table
evaluates `os.path.relpath("")`, which raises
`ValueError("no path specified")`, while the no-document call returns the
workspace root (as the repository's own test
`test_document_with_no_path_falls_back_to_workspace` expects). -/
theorem C7_empty_path_document :
    getCwd ⟨some "${fileDirname}".data, "/home/user/myproject".data⟩
        (some []) = Except.error "no path specified" ∧
    getCwd ⟨some "${fileDirname}".data, "/home/user/myproject".data⟩ none
      = Except.ok "/home/user/myproject".data ∧
    getCwd ⟨some "${fileDirname}".data, "/home/user/myproject".data⟩
        (some [])
      ≠ getCwd ⟨some "${fileDirname}".data, "/home/user/myproject".data⟩
        none := by
  refine ⟨by decide, by decide, by decide⟩

end VSIsort

namespace VSIsort

/- ********************************************************************
   Magic-command stripping and the dispatcher preconditions (C8, C10).

   Embedded from lsp_server.py `MAGIC_COMMAND_REGEX`/`strip_magic_commands`
   (lines 325-336), `is_python` (339-347), `is_interactive` (350-352) and
   `_run_tool_on_document` (656-771).  Python's `ast.parse` and
   `lsp_utils.is_stdlib_file` are external to the repository sources and
   are kept abstract as parameters.
   ******************************************************************** -/

/-- The ASCII whitespace of the regex class `\s` (Python also accepts some
Unicode spaces, on which nothing here depends). -/
def pyIsSpace (c : Char) : Bool :=
  [' ', '\t', '\n', '\r', Char.ofNat 11, Char.ofNat 12].contains c

/-- The ASCII word characters of the regex class `\w`. -/
def pyIsWordChar (c : Char) : Bool := c.isAlphanum || c == '_'

/-- Does the string begin with a magic marker, i.e. match `(%{1,2}\w|!)`? -/
def markerAt : Str → Bool
  | [] => false
  | c :: rest =>
    if c = '!' then true
    else if c = '%' then
      match rest with
      | [] => false
      | d :: rest2 =>
        if d = '%' then
          match rest2 with
          | [] => false
          | e :: _ => pyIsWordChar e
        else pyIsWordChar d
    else false

/-- `MAGIC_COMMAND_REGEX.match(line)`: the regex `^\s*(%{1,2}\w|!)`
matches exactly when the marker begins right after the maximal run of
leading whitespace, since neither `%` nor `!` is whitespace (backtracking
into `\s*` cannot produce another match position). -/
def magicMatch (l : Str) : Bool := markerAt (l.dropWhile pyIsSpace)

/-- `strip_magic_commands` (lsp_server.py lines 332-336): each line
matching the magic regex is replaced by a bare newline. -/
def stripMagicCommands (source : Str) : Str :=
  ((splitlinesKeep source).map
    (fun l => if magicMatch l then ['\n'] else l)).flatten

/-- `is_python` (lsp_server.py lines 339-347): the syntax check parses the
magically-stripped source; `parseOk` abstracts `ast.parse` succeeding. -/
def isPython (parseOk : Str → Bool) (code : Str) : Bool :=
  parseOk (stripMagicCommands code)

/-- `is_interactive` (lsp_server.py lines 350-352). -/
def isInteractive (p : Str) : Bool := pyEndsWith p ".interactive".data

/-- `TOOL_ARGS = []` (lsp_server.py line 84). -/
def TOOL_ARGS : List String := []

/-- The document fields `_run_tool_on_document` reads: the filesystem path
`_get_document_path` derives and the text. -/
structure ToolDocument where
  fsPath : String
  source : Str
deriving DecidableEq, Repr

/-- The settings fields `_run_tool_on_document` reads. -/
structure DispSettings where
  cwd : Option Str
  workspaceFS : Str
  path : List String
  interpreter : List String
  args : List String
deriving DecidableEq, Repr

/-- The tool invocation the dispatcher hands to one of the three
execution channels: the chosen strategy flags, the argument vector, the
working directory and the stdin payload. -/
structure ToolInvocation where
  choice : StrategyChoice
  argv : List String
  cwd : Str
  source : Str
deriving DecidableEq, Repr

/-- `os.path.dirname` over Lean strings. -/
def dirnameStr (s : String) : String := String.mk (pyDirname s.data)

/-- `_run_tool_on_document` (lsp_server.py lines 656-771), embedded up to
the point where one of the three channels would run: `.ok none` models the
precondition skips that return `None` without any execution, `.error`
models a propagated exception (from `get_cwd`), and `.ok (some inv)`
carries what would be executed.  `isStdlib` abstracts
`lsp_utils.is_stdlib_file`, `isCurrent` abstracts
`is_current_interpreter`, `parseOk` abstracts `ast.parse`. -/
def runToolOnDocument (isStdlib : String → Bool) (isCurrent : String → Bool)
    (parseOk : Str → Bool) (doc : ToolDocument) (st : DispSettings)
    (use_stdin : Bool) (extra_args : List String) :
    Except String (Option ToolInvocation) :=
  if isStdlib doc.fsPath then .ok none
  else if isInteractive doc.fsPath.data then .ok none
  else if ¬ isPython parseOk doc.source then .ok none
  else
    match getCwd ⟨st.cwd, st.workspaceFS⟩ (some doc.fsPath.data) with
    | .error e => .error e
    | .ok cwd =>
      let choice := chooseStrategyDoc st.path st.interpreter isCurrent
      let argv1 :=
        if use_stdin then
          choice.argv ++ ["-"] ++ TOOL_ARGS ++ st.args ++ extra_args
            ++ ["--filename", doc.fsPath]
        else
          choice.argv ++ TOOL_ARGS ++ st.args ++ extra_args ++ [doc.fsPath]
      let argv := argv1.map
        (fun a => if a = "${fileDirname}" then dirnameStr doc.fsPath else a)
      .ok (some
        { choice := choice, argv := argv, cwd := cwd,
          source := pyReplace doc.source ['\r', '\n'] ['\n'] })

end VSIsort

namespace VSIsort

/-- C8: the dispatcher returns null, running nothing, whenever the
document path is a standard-library file, or ends with the
interactive-window suffix, or the source fails the syntax check — the
check parsing the source with magic-command/shell-escape lines blanked to
empty lines; and whenever an invocation is produced, its stdin payload is
the document source with those lines preserved and only `\r\n` line
endings normalized to `\n`. -/
theorem C8_dispatcher_preconditions (isStdlib isCurrent : String → Bool)
    (parseOk : Str → Bool) (doc : ToolDocument) (st : DispSettings)
    (use_stdin : Bool) (extra_args : List String) :
    (isStdlib doc.fsPath = true →
      runToolOnDocument isStdlib isCurrent parseOk doc st use_stdin
        extra_args = .ok none) ∧
    (pyEndsWith doc.fsPath.data ".interactive".data = true →
      runToolOnDocument isStdlib isCurrent parseOk doc st use_stdin
        extra_args = .ok none) ∧
    (parseOk (stripMagicCommands doc.source) = false →
      runToolOnDocument isStdlib isCurrent parseOk doc st use_stdin
        extra_args = .ok none) ∧
    (∀ inv, runToolOnDocument isStdlib isCurrent parseOk doc st use_stdin
        extra_args = .ok (some inv) →
      inv.source = pyReplace doc.source ['\r', '\n'] ['\n']) := by
  refine ⟨?_, ?_, ?_, ?_⟩
  · intro h
    simp [runToolOnDocument, h]
  · intro h
    by_cases h1 : isStdlib doc.fsPath <;>
      simp [runToolOnDocument, isInteractive, h, h1]
  · intro h
    by_cases h1 : isStdlib doc.fsPath
    · simp [runToolOnDocument, h1]
    · by_cases h2 : isInteractive doc.fsPath.data <;>
        simp [runToolOnDocument, isPython, h, h1, h2]
  · intro inv h
    rw [runToolOnDocument] at h
    by_cases h1 : isStdlib doc.fsPath
    · simp [h1] at h
    · rw [if_neg (by simp [h1])] at h
      by_cases h2 : isInteractive doc.fsPath.data
      · simp [h2] at h
      · rw [if_neg (by simp [h2])] at h
        by_cases h3 : isPython parseOk doc.source
        · rw [if_neg (by simp [h3])] at h
          cases hcwd : getCwd ⟨st.cwd, st.workspaceFS⟩ (some doc.fsPath.data)
            with
          | error e =>
            rw [hcwd] at h
            cases h
          | ok cwd =>
            rw [hcwd] at h
            simp only [Except.ok.injEq, Option.some.injEq] at h
            rw [← h]
        · simp [h3] at h

/-- Witness for C8: concrete skips for each precondition and a concrete
produced invocation whose payload keeps the magic line and normalizes the
CRLF. -/
theorem C8_dispatcher_preconditions_witness :
    runToolOnDocument (fun p => p == "/usr/lib/python3/os.py")
        (fun _ => true) (fun _ => true)
        ⟨"/usr/lib/python3/os.py", "import a\n".data⟩
        ⟨none, "/p".data, [], [], []⟩ true [] = .ok none ∧
    runToolOnDocument (fun _ => false) (fun _ => true) (fun _ => true)
        ⟨"/x/win.interactive", "import a\n".data⟩
        ⟨none, "/p".data, [], [], []⟩ true [] = .ok none ∧
    runToolOnDocument (fun _ => false) (fun _ => true) (fun _ => false)
        ⟨"/p/a.py", "import a\n".data⟩
        ⟨none, "/p".data, [], [], []⟩ true [] = .ok none ∧
    (ToolInvocation.source
      { choice := ⟨false, false, ["isort"]⟩,
        argv := ["isort", "-", "--filename", "/p/a.py"],
        cwd := "/p".data,
        source := "!pip install x\nimport a\nimport b\n".data })
      = pyReplace "!pip install x\nimport a\r\nimport b\n".data
          ['\r', '\n'] ['\n'] :=
  ⟨(C8_dispatcher_preconditions (fun p => p == "/usr/lib/python3/os.py")
      (fun _ => true) (fun _ => true)
      ⟨"/usr/lib/python3/os.py", "import a\n".data⟩
      ⟨none, "/p".data, [], [], []⟩ true []).1 (by decide),
   (C8_dispatcher_preconditions (fun _ => false) (fun _ => true)
      (fun _ => true) ⟨"/x/win.interactive", "import a\n".data⟩
      ⟨none, "/p".data, [], [], []⟩ true []).2.1 (by decide),
   (C8_dispatcher_preconditions (fun _ => false) (fun _ => true)
      (fun _ => false) ⟨"/p/a.py", "import a\n".data⟩
      ⟨none, "/p".data, [], [], []⟩ true []).2.2.1 rfl,
   (C8_dispatcher_preconditions (fun _ => false) (fun _ => true)
      (fun _ => true)
      ⟨"/p/a.py", "!pip install x\nimport a\r\nimport b\n".data⟩
      ⟨none, "/p".data, [], [], []⟩ true []).2.2.2
      { choice := ⟨false, false, ["isort"]⟩,
        argv := ["isort", "-", "--filename", "/p/a.py"],
        cwd := "/p".data,
        source := "!pip install x\nimport a\nimport b\n".data }
      (by decide)⟩

end VSIsort

namespace VSIsort

/-- A string with no line-break characters. -/
def Clean (l : Str) : Prop := ∀ c ∈ l, c ≠ '\r' ∧ c ≠ '\n'

/-- A proper line as produced by `splitlines(keepends=True)`: a break-free
body followed by at most one terminator, and non-empty. -/
def IsLine (l : Str) : Prop :=
  ∃ body term, l = body ++ term ∧ Clean body ∧
    (term = [] ∨ term = ['\n'] ∨ term = ['\r'] ∨ term = ['\r', '\n']) ∧
    l ≠ []

/-- Ends with a line terminator character. -/
def endsTerm (l : Str) : Prop :=
  pyEndsWith l ['\n'] = true ∨ pyEndsWith l ['\r'] = true

/-- Every element except possibly the last ends with a terminator. -/
def NonLastTerm : List Str → Prop
  | [] => True
  | [_] => True
  | a :: rest => endsTerm a ∧ NonLastTerm rest

/-- Re-splitting a concatenation of proper lines merges exactly the
adjacent pairs `… ++ ['\r']`, `['\n']` into one `\r\n`-terminated line. -/
def mergeCR : List Str → List Str
  | a :: b :: rest =>
    if pyEndsWith a ['\r'] = true ∧ b = ['\n'] then
      (a ++ ['\n']) :: mergeCR rest
    else a :: mergeCR (b :: rest)
  | l => l

/-- Splitting walks through break-free characters, accumulating them. -/
theorem splitKeepAux_other (cur : Str) (c : Char) (rest : Str)
    (h1 : c ≠ '\r') (h2 : c ≠ '\n') :
    splitKeepAux cur (c :: rest) = splitKeepAux (c :: cur) rest := by
  cases rest with
  | nil => simp [splitKeepAux, h1, h2]
  | cons d tl => simp [splitKeepAux, h1, h2]

/-- Splitting consumes a `\r` terminator not followed by `\n`. -/
theorem splitKeepAux_cr (cur : Str) (rest : Str)
    (h : rest.head? ≠ some '\n') :
    splitKeepAux cur ('\r' :: rest)
      = (cur.reverse ++ ['\r']) :: splitKeepAux [] rest := by
  cases rest with
  | nil => rfl
  | cons d tl =>
    have hd : d ≠ '\n' := by
      intro he
      exact h (by rw [he]; rfl)
    simp [splitKeepAux, hd]

/-- Splitting accumulates a whole break-free block. -/
theorem splitKeepAux_clean_append : ∀ (body : Str), Clean body →
    ∀ (cur rest : Str),
    splitKeepAux cur (body ++ rest) = splitKeepAux (body.reverse ++ cur) rest := by
  intro body
  induction body with
  | nil =>
    intro _ cur rest
    simp
  | cons c b ih =>
    intro hb cur rest
    have hc := hb c (List.mem_cons_self c b)
    rw [List.cons_append, splitKeepAux_other cur c (b ++ rest) hc.1 hc.2]
    rw [ih (fun x hx => hb x (List.mem_cons_of_mem c hx)) (c :: cur) rest]
    simp

/-- Splitting a proper line with terminator off the front of a string
(a `\r`-terminated line only when no `\n` follows). -/
theorem splitlines_cons_line (body term rest : Str) (hb : Clean body)
    (ht : term = ['\n'] ∨ term = ['\r', '\n'] ∨
      (term = ['\r'] ∧ rest.head? ≠ some '\n')) :
    splitlinesKeep ((body ++ term) ++ rest)
      = (body ++ term) :: splitlinesKeep rest := by
  rw [splitlinesKeep, List.append_assoc, splitKeepAux_clean_append body hb]
  rcases ht with rfl | rfl | ⟨rfl, hh⟩
  · simp [splitKeepAux, splitlinesKeep]
  · simp [splitKeepAux, splitlinesKeep]
  · rw [List.singleton_append, splitKeepAux_cr _ _ hh]
    simp [splitlinesKeep]

/-- A non-empty break-free string is a single terminator-less line. -/
theorem splitlines_singleton (body : Str) (hb : Clean body)
    (hne : body ≠ []) : splitlinesKeep body = [body] := by
  have := splitKeepAux_clean_append body hb [] []
  rw [List.append_nil] at this
  rw [splitlinesKeep, this, List.append_nil, splitKeepAux]
  simp [hne]

end VSIsort

namespace VSIsort

/-- Ending on a given last character. -/
theorem endsWith_single (x : Str) (c d : Char) :
    pyEndsWith (x ++ [c]) [d] = (d == c) := by
  simp [pyEndsWith, List.isSuffixOf, List.reverse_append, List.isPrefixOf]

/-- A string ending with `c` contains `c`. -/
theorem endsWith_single_mem (l : Str) (c : Char)
    (h : pyEndsWith l [c] = true) : c ∈ l := by
  rw [pyEndsWith, List.isSuffixOf] at h
  rcases (isPrefixOf_iff_exists _ _).mp h with ⟨r, hr⟩
  have : c ∈ l.reverse := by
    rw [hr]
    exact List.mem_cons_self c r
  simpa using this

/-- `NonLastTerm` after adding a terminator-ended head. -/
theorem nonLastTerm_cons (a : Str) (L : List Str) (h : endsTerm a)
    (hL : NonLastTerm L) : NonLastTerm (a :: L) := by
  cases L with
  | nil => trivial
  | cons b L' => exact ⟨h, hL⟩

/-- The tail of a `NonLastTerm` chain. -/
theorem nonLastTerm_tail (a : Str) (L : List Str)
    (h : NonLastTerm (a :: L)) : NonLastTerm L := by
  cases L with
  | nil => trivial
  | cons b L' => exact h.2

/-- Every line produced by the split is proper. -/
theorem splitKeepAux_isLine : ∀ (cur s : Str), Clean cur →
    ∀ l ∈ splitKeepAux cur s, IsLine l := by
  intro cur s
  induction cur, s using splitKeepAux.induct with
  | case1 =>
    intro _ l hl
    simp [splitKeepAux] at hl
  | case2 cur hne =>
    intro hcur l hl
    rw [splitKeepAux] at hl
    simp only [hne, if_neg, ite_false, List.mem_singleton] at hl
    subst hl
    refine ⟨cur.reverse, [], by simp, ?_, Or.inl rfl, by simpa using hne⟩
    intro x hx
    exact hcur x (List.mem_reverse.mp hx)
  | case3 cur rest ih =>
    intro hcur l hl
    rw [show splitKeepAux cur ('\r' :: '\n' :: rest)
        = (cur.reverse ++ ['\r', '\n']) :: splitKeepAux [] rest from rfl] at hl
    rcases List.mem_cons.mp hl with rfl | hmem
    · refine ⟨cur.reverse, ['\r', '\n'], rfl, ?_, by simp, by simp⟩
      intro x hx
      exact hcur x (List.mem_reverse.mp hx)
    · exact ih (by intro x hx; cases hx) l hmem
  | case4 cur rest hguard ih =>
    intro hcur l hl
    have hh : rest.head? ≠ some '\n' := by
      intro hcon
      cases rest with
      | nil => cases hcon
      | cons d tl =>
        have : d = '\n' := by simpa using hcon
        exact hguard tl (by rw [this])
    rw [splitKeepAux_cr _ _ hh] at hl
    rcases List.mem_cons.mp hl with rfl | hmem
    · refine ⟨cur.reverse, ['\r'], rfl, ?_, by simp, by simp⟩
      intro x hx
      exact hcur x (List.mem_reverse.mp hx)
    · exact ih (by intro x hx; cases hx) l hmem
  | case5 cur rest ih =>
    intro hcur l hl
    rw [show splitKeepAux cur ('\n' :: rest)
        = (cur.reverse ++ ['\n']) :: splitKeepAux [] rest from rfl] at hl
    rcases List.mem_cons.mp hl with rfl | hmem
    · refine ⟨cur.reverse, ['\n'], rfl, ?_, by simp, by simp⟩
      intro x hx
      exact hcur x (List.mem_reverse.mp hx)
    · exact ih (by intro x hx; cases hx) l hmem
  | case6 cur c rest g1 g2 g3 ih =>
    intro hcur l hl
    have hc1 : c ≠ '\r' := fun he => g2 he
    have hc2 : c ≠ '\n' := fun he => g3 he
    rw [splitKeepAux_other cur c rest hc1 hc2] at hl
    refine ih ?_ l hl
    intro x hx
    rcases List.mem_cons.mp hx with rfl | hx2
    · exact ⟨hc1, hc2⟩
    · exact hcur x hx2

end VSIsort

namespace VSIsort

/-- Every line of a split string is proper. -/
theorem splitlinesKeep_isLine (s : Str) :
    ∀ l ∈ splitlinesKeep s, IsLine l :=
  splitKeepAux_isLine [] s (by intro x hx; cases hx)

/-- Lines ending in a terminator character do end in a terminator. -/
theorem endsTerm_append_nl (x : Str) : endsTerm (x ++ ['\n']) := by
  left
  rw [endsWith_single]
  rfl

/-- A string ending in `\r` ends in a terminator. -/
theorem endsTerm_append_cr (x : Str) : endsTerm (x ++ ['\r']) := by
  right
  rw [endsWith_single]
  rfl

/-- Every non-last line of a split string ends with a terminator. -/
theorem splitKeepAux_nonLastTerm : ∀ (cur s : Str),
    NonLastTerm (splitKeepAux cur s) := by
  intro cur s
  induction cur, s using splitKeepAux.induct with
  | case1 => trivial
  | case2 cur hne =>
    rw [splitKeepAux]
    simp only [hne, if_neg, ite_false]
    trivial
  | case3 cur rest ih =>
    rw [show splitKeepAux cur ('\r' :: '\n' :: rest)
        = (cur.reverse ++ ['\r', '\n']) :: splitKeepAux [] rest from rfl]
    refine nonLastTerm_cons _ _ ?_ ih
    rw [show cur.reverse ++ ['\r', '\n'] = (cur.reverse ++ ['\r']) ++ ['\n']
      by simp]
    exact endsTerm_append_nl _
  | case4 cur rest hguard ih =>
    have hh : rest.head? ≠ some '\n' := by
      intro hcon
      cases rest with
      | nil => cases hcon
      | cons d tl =>
        have : d = '\n' := by simpa using hcon
        exact hguard tl (by rw [this])
    rw [splitKeepAux_cr _ _ hh]
    exact nonLastTerm_cons _ _ (endsTerm_append_cr _) ih
  | case5 cur rest ih =>
    rw [show splitKeepAux cur ('\n' :: rest)
        = (cur.reverse ++ ['\n']) :: splitKeepAux [] rest from rfl]
    exact nonLastTerm_cons _ _ (endsTerm_append_nl _) ih
  | case6 cur c rest g1 g2 g3 ih =>
    rw [splitKeepAux_other cur c rest (fun he => g2 he) (fun he => g3 he)]
    exact ih

/-- A proper line that ends with `\r` is a break-free body plus `\r`. -/
theorem isLine_endsCR (a : Str) (ha : IsLine a)
    (h : pyEndsWith a ['\r'] = true) :
    ∃ body, a = body ++ ['\r'] ∧ Clean body := by
  obtain ⟨body, term, rfl, hb, ht, hne⟩ := ha
  rcases ht with rfl | rfl | rfl | rfl
  · rw [List.append_nil] at h ⊢
    exact absurd ((hb '\r' (endsWith_single_mem _ _ h)).1) (by simp)
  · rw [endsWith_single] at h
    cases h
  · exact ⟨body, rfl, hb⟩
  · rw [show body ++ ['\r', '\n'] = (body ++ ['\r']) ++ ['\n'] by simp,
      endsWith_single] at h
    cases h
  
/-- A proper line that starts with `\n` is exactly `['\n']`. -/
theorem isLine_starts_nl (b : Str) (hb : IsLine b)
    (h : b.head? = some '\n') : b = ['\n'] := by
  obtain ⟨body, term, rfl, hcl, ht, hne⟩ := hb
  cases body with
  | cons c body' =>
    have hc : c = '\n' := by simpa using h
    exact absurd hc (hcl c (List.mem_cons_self c body')).2
  | nil =>
    simp only [List.nil_append] at h ⊢
    rcases ht with rfl | rfl | rfl | rfl
    · cases h
    · rfl
    · simp at h
    · simp at h

end VSIsort

namespace VSIsort

/-- Head of a `NonLastTerm` chain of two or more ends in a terminator. -/
theorem nonLastTerm_head (a b : Str) (rest : List Str)
    (h : NonLastTerm (a :: b :: rest)) : endsTerm a := h.1

/-- A break-free string ends in no terminator. -/
theorem clean_not_endsTerm (body : Str) (hb : Clean body) :
    ¬ endsTerm body := by
  rintro (h | h)
  · exact (hb '\n' (endsWith_single_mem _ _ h)).2 rfl
  · exact (hb '\r' (endsWith_single_mem _ _ h)).1 rfl

/-- Splitting the concatenation of proper lines, each non-last one
terminator-ended, merges exactly the `\r`-then-`\n` adjacencies. -/
theorem splitlines_flatten : ∀ (L : List Str),
    (∀ l ∈ L, IsLine l) → NonLastTerm L →
    splitlinesKeep L.flatten = mergeCR L := by
  intro L
  induction L using mergeCR.induct with
  | case1 a b rest hcond ih =>
    intro hL hT
    obtain ⟨hcr, rfl⟩ := hcond
    obtain ⟨body, rfl, hclean⟩ := isLine_endsCR a (hL a (by simp)) hcr
    have hm : mergeCR ((body ++ ['\r']) :: ['\n'] :: rest)
        = ((body ++ ['\r']) ++ ['\n']) :: mergeCR rest := by
      rw [mergeCR, if_pos ⟨hcr, rfl⟩]
    rw [hm]
    have hfl : ((body ++ ['\r']) :: ['\n'] :: rest).flatten
        = (body ++ ['\r', '\n']) ++ rest.flatten := by simp
    rw [hfl]
    rw [splitlines_cons_line body ['\r', '\n'] rest.flatten hclean
      (Or.inr (Or.inl rfl))]
    rw [ih (fun l hl => hL l (List.mem_cons_of_mem _ (List.mem_cons_of_mem _ hl)))
      (nonLastTerm_tail _ _ (nonLastTerm_tail _ _ hT))]
    simp
  | case2 a b rest hcond ih =>
    intro hL hT
    have hbline := hL b (List.mem_cons_of_mem _ (List.mem_cons_self _ _))
    have hbne : b ≠ [] := by
      obtain ⟨_, _, _, _, _, hne⟩ := hbline
      exact hne
    have hmerge : mergeCR (a :: b :: rest) = a :: mergeCR (b :: rest) := by
      rw [mergeCR, if_neg hcond]
    rw [hmerge]
    have hihs := ih (fun l hl => hL l (List.mem_cons_of_mem _ hl))
      (nonLastTerm_tail _ _ hT)
    obtain ⟨body, term, rfl, hclean, ht, hne⟩ := hL a (List.mem_cons_self _ _)
    have hflat : ((body ++ term) :: b :: rest).flatten
        = (body ++ term) ++ (b :: rest).flatten := by simp
    rw [hflat]
    rcases ht with rfl | rfl | rfl | rfl
    · exfalso
      rw [List.append_nil] at hT
      exact clean_not_endsTerm body hclean (nonLastTerm_head _ _ _ hT)
    · rw [splitlines_cons_line body ['\n'] _ hclean (Or.inl rfl), hihs]
    · have hhead : (b :: rest).flatten.head? ≠ some '\n' := by
        intro hcon
        cases hb : b with
        | nil => exact hbne hb
        | cons c b' =>
          have hcn : c = '\n' := by
            rw [show (b :: rest).flatten = b ++ rest.flatten from by simp,
              hb] at hcon
            simpa using hcon
          have : b = ['\n'] := isLine_starts_nl b hbline (by rw [hb, hcn]; rfl)
          exact hcond ⟨by rw [endsWith_single]; rfl, this⟩
      rw [splitlines_cons_line body ['\r'] _ hclean
        (Or.inr (Or.inr ⟨rfl, hhead⟩)), hihs]
    · rw [splitlines_cons_line body ['\r', '\n'] _ hclean
        (Or.inr (Or.inl rfl)), hihs]
  | case3 l hnot =>
    intro hL hT
    cases l with
    | nil => rfl
    | cons a l' =>
      cases l' with
      | cons b r => exact (hnot a b r rfl).elim
      | nil =>
        obtain ⟨body, term, ha, hclean, ht, hne⟩ := hL a (by simp)
        have hflat : [a].flatten = a := by simp
        have hm : mergeCR [a] = [a] := rfl
        rw [hflat, hm, ha]
        rcases ht with rfl | rfl | rfl | rfl
        · rw [List.append_nil]
          rw [List.append_nil] at ha
          exact splitlines_singleton body hclean (ha ▸ hne)
        · have := splitlines_cons_line body ['\n'] [] hclean (Or.inl rfl)
          rw [List.append_nil] at this
          rw [this]
          rfl
        · have := splitlines_cons_line body ['\r'] [] hclean
            (Or.inr (Or.inr ⟨rfl, by simp⟩))
          rw [List.append_nil] at this
          rw [this]
          rfl
        · have := splitlines_cons_line body ['\r', '\n'] [] hclean
            (Or.inr (Or.inl rfl))
          rw [List.append_nil] at this
          rw [this]
          rfl

end VSIsort

namespace VSIsort

/-- The marker test examines at most three leading characters. -/
theorem markerAt_ext3 (a b c : Char) (X Y : Str) :
    markerAt (a :: b :: c :: X) = markerAt (a :: b :: c :: Y) := by
  by_cases h1 : a = '!' <;> by_cases h2 : a = '%' <;>
    by_cases h3 : b = '%' <;> simp [markerAt, h1, h2, h3]

/-- Appending `\n` after a trailing `\r` cannot create a marker. -/
theorem markerAt_cr_nl (y : Str) :
    markerAt (y ++ ['\r', '\n']) = markerAt (y ++ ['\r']) := by
  match y with
  | [] => rfl
  | [a] =>
    by_cases h1 : a = '!' <;> by_cases h2 : a = '%' <;>
      simp [markerAt, h1, h2, pyIsWordChar, Char.isAlphanum, Char.isAlpha,
        Char.isDigit, Char.isUpper, Char.isLower]
  | [a, b] =>
    by_cases h1 : a = '!' <;> by_cases h2 : a = '%' <;>
      by_cases h3 : b = '%' <;>
      simp [markerAt, h1, h2, h3, pyIsWordChar, Char.isAlphanum,
        Char.isAlpha, Char.isDigit, Char.isUpper, Char.isLower]
  | a :: b :: c :: y' =>
    rw [show (a :: b :: c :: y') ++ ['\r', '\n']
        = a :: b :: c :: (y' ++ ['\r', '\n']) from rfl,
      show (a :: b :: c :: y') ++ ['\r']
        = a :: b :: c :: (y' ++ ['\r']) from rfl]
    exact markerAt_ext3 a b c _ _

/-- A `\r`-terminated non-magic line stays non-magic when the re-split
attaches the following bare `\n` to it. -/
theorem magicMatch_cr_nl (body : Str)
    (h : magicMatch (body ++ ['\r']) = false) :
    magicMatch (body ++ ['\r', '\n']) = false := by
  unfold magicMatch at h ⊢
  rw [List.dropWhile_append] at h ⊢
  by_cases he : (body.dropWhile pyIsSpace).isEmpty
  · rw [if_pos he]
    decide
  · rw [if_neg he] at h
    rw [if_neg he]
    rw [markerAt_cr_nl]
    exact h

/-- Merging preserves the underlying text. -/
theorem mergeCR_flatten : ∀ (L : List Str),
    (mergeCR L).flatten = L.flatten := by
  intro L
  induction L using mergeCR.induct with
  | case1 a b rest hcond ih =>
    obtain ⟨hcr, rfl⟩ := hcond
    rw [mergeCR, if_pos ⟨hcr, rfl⟩]
    simp [ih]
  | case2 a b rest hcond ih =>
    rw [mergeCR, if_neg hcond]
    simp [ih]
  | case3 l hnot =>
    cases l with
    | nil => rfl
    | cons a l' =>
      cases l' with
      | nil => rfl
      | cons b r => exact (hnot a b r rfl).elim

/-- Merging a list of proper, non-magic lines yields non-magic lines. -/
theorem mergeCR_nomatch : ∀ (L : List Str),
    (∀ e ∈ L, IsLine e) → (∀ e ∈ L, magicMatch e = false) →
    ∀ e ∈ mergeCR L, magicMatch e = false := by
  intro L
  induction L using mergeCR.induct with
  | case1 a b rest hcond ih =>
    intro hL hM e he
    obtain ⟨hcr, rfl⟩ := hcond
    rw [mergeCR, if_pos ⟨hcr, rfl⟩] at he
    rcases List.mem_cons.mp he with rfl | hmem
    · obtain ⟨body, rfl, hclean⟩ := isLine_endsCR a (hL a (by simp)) hcr
      rw [List.append_assoc]
      exact magicMatch_cr_nl body (hM _ (List.mem_cons_self _ _))
    · exact ih
        (fun x hx => hL x (List.mem_cons_of_mem _ (List.mem_cons_of_mem _ hx)))
        (fun x hx => hM x (List.mem_cons_of_mem _ (List.mem_cons_of_mem _ hx)))
        e hmem
  | case2 a b rest hcond ih =>
    intro hL hM e he
    rw [mergeCR, if_neg hcond] at he
    rcases List.mem_cons.mp he with rfl | hmem
    · exact hM e (List.mem_cons_self _ _)
    · exact ih (fun x hx => hL x (List.mem_cons_of_mem _ hx))
        (fun x hx => hM x (List.mem_cons_of_mem _ hx)) e hmem
  | case3 l hnot =>
    intro hL hM e he
    cases l with
    | nil => cases he
    | cons a l' =>
      cases l' with
      | nil => exact hM e he
      | cons b r => exact (hnot a b r rfl).elim

end VSIsort

namespace VSIsort

/-- The per-line action of `strip_magic_commands`. -/
def magicF (l : Str) : Str := if magicMatch l then ['\n'] else l

/-- The per-line action preserves properness of lines. -/
theorem magicF_isLine (l : Str) (h : IsLine l) : IsLine (magicF l) := by
  rw [magicF]
  by_cases hm : magicMatch l
  · rw [if_pos hm]
    exact ⟨[], ['\n'], rfl, (by intro x hx; cases hx), Or.inr (Or.inl rfl),
      (by simp)⟩
  · rw [if_neg hm]
    exact h

/-- The per-line action preserves ending in a terminator. -/
theorem magicF_endsTerm (l : Str) (h : endsTerm l) : endsTerm (magicF l) := by
  rw [magicF]
  by_cases hm : magicMatch l
  · rw [if_pos hm]
    exact endsTerm_append_nl []
  · rw [if_neg hm]
    exact h

/-- The per-line action preserves the non-last-terminator invariant. -/
theorem map_magicF_nonLastTerm : ∀ (L : List Str),
    NonLastTerm L → NonLastTerm (L.map magicF) := by
  intro L
  induction L with
  | nil => intro _; trivial
  | cons a L ih =>
    intro h
    cases L with
    | nil => trivial
    | cons b L' =>
      exact nonLastTerm_cons _ _ (magicF_endsTerm a (nonLastTerm_head _ _ _ h))
        (ih (nonLastTerm_tail _ _ h))

/-- After the per-line action no line matches the magic pattern. -/
theorem map_magicF_nomatch (L : List Str) :
    ∀ e ∈ L.map magicF, magicMatch e = false := by
  intro e he
  rcases List.mem_map.mp he with ⟨l, hl, rfl⟩
  rw [magicF]
  by_cases hm : magicMatch l
  · rw [if_pos hm]
    decide
  · rw [if_neg hm]
    simpa using hm

/-- C10: `strip_magic_commands` is idempotent — applying it twice equals
applying it once; every source whose lines all fail the
magic-command/shell-escape pattern is returned unchanged; and the bare
`"\n"` that replaces a matching line never matches the pattern again. -/
theorem C10_strip_magic_idempotent (s : Str) :
    stripMagicCommands (stripMagicCommands s) = stripMagicCommands s ∧
    ((∀ l ∈ splitlinesKeep s, magicMatch l = false) →
      stripMagicCommands s = s) ∧
    magicMatch ['\n'] = false := by
  refine ⟨?_, ?_, by decide⟩
  · have hL2 : ∀ l ∈ (splitlinesKeep s).map magicF, IsLine l := by
      intro l hl
      rcases List.mem_map.mp hl with ⟨x, hx, rfl⟩
      exact magicF_isLine x (splitlinesKeep_isLine s x hx)
    have hT2 : NonLastTerm ((splitlinesKeep s).map magicF) :=
      map_magicF_nonLastTerm _ (splitKeepAux_nonLastTerm [] s)
    have hsplit : splitlinesKeep (stripMagicCommands s)
        = mergeCR ((splitlinesKeep s).map magicF) := by
      rw [show stripMagicCommands s
          = ((splitlinesKeep s).map magicF).flatten from rfl]
      exact splitlines_flatten _ hL2 hT2
    have hnm : ∀ e ∈ mergeCR ((splitlinesKeep s).map magicF),
        magicMatch e = false :=
      mergeCR_nomatch _ hL2 (map_magicF_nomatch _)
    calc stripMagicCommands (stripMagicCommands s)
        = ((splitlinesKeep (stripMagicCommands s)).map magicF).flatten := rfl
      _ = ((mergeCR ((splitlinesKeep s).map magicF)).map magicF).flatten := by
            rw [hsplit]
      _ = (mergeCR ((splitlinesKeep s).map magicF)).flatten := by
            have hid : (mergeCR ((splitlinesKeep s).map magicF)).map magicF
                = (mergeCR ((splitlinesKeep s).map magicF)).map id :=
              List.map_congr_left (fun e he => by simp [magicF, hnm e he])
            rw [hid, List.map_id]
      _ = ((splitlinesKeep s).map magicF).flatten := mergeCR_flatten _
      _ = stripMagicCommands s := rfl
  · intro h
    have hid : (splitlinesKeep s).map magicF = (splitlinesKeep s).map id :=
      List.map_congr_left (fun e he => by simp [magicF, h e he])
    rw [show stripMagicCommands s
        = ((splitlinesKeep s).map magicF).flatten from rfl, hid, List.map_id]
    exact join_splitlinesKeep s

/-- Witness for C10: idempotence on a source with a shell escape and a
CRLF-crossing merge, and invariance of a magic-free source. -/
theorem C10_strip_magic_idempotent_witness :
    stripMagicCommands
        (stripMagicCommands "!pip install x\nimport a\r%magic\nimport b".data)
      = stripMagicCommands "!pip install x\nimport a\r%magic\nimport b".data ∧
    stripMagicCommands "import a\nimport b\n".data = "import a\nimport b\n".data :=
  ⟨(C10_strip_magic_idempotent "!pip install x\nimport a\r%magic\nimport b".data).1,
   (C10_strip_magic_idempotent "import a\nimport b\n".data).2.1 (by decide)⟩

end VSIsort
